import Mathlib

/-!
Verification of the `my_editor` repository against its natural-language
specification.  Each Python component relevant to the claims is shallowly
embedded as executable Lean definitions: pure functions become Lean
functions, mutable state becomes explicit state passing, raised exceptions
become `Except` / `Option` results or explicit error components, and the
dispatch/IO side effects relevant to the claims are made observable through
explicit traces and log lists.
-/

set_option maxHeartbeats 1000000
set_option maxRecDepth 2000

namespace MyEditor

/-! ## Event bus (src/controllers/event_bus.py) -/

namespace EventBus

/-- Log entries produced by `EventBus.publish`: the debug entry written when
an event has no registered handlers, and the exception entry written when a
handler raises (`logger.exception` in the `except` branch). -/
inductive LogEntry where
  | noHandlers (event : String)
  | handlerExc (event : String)
deriving DecidableEq, Repr

/-- A handler models a Python callable `Callable[[Payload], None]` acting on
shared mutable state `σ`: applied to the payload and the current state it
returns the state after the call together with `true` when the call raised
an exception (mutations made before the raise persist, as in Python). -/
def Handler (π σ : Type) : Type := π → σ → σ × Bool

/-- The subscription dictionary `Dict[str, List[Handler]]` of `EventBus`,
as an association list keyed by event name. -/
def Subs (π σ : Type) : Type := List (String × List (Handler π σ))

/-- `self._subscriptions.get(event, [])`. -/
def getHandlers (subs : Subs π σ) (event : String) : List (Handler π σ) :=
  match subs.find? (fun p => p.1 == event) with
  | some p => p.2
  | none => []

/-- The dispatch loop of `EventBus.publish`: each handler of the copied list
is invoked in turn; when a handler raises, the exception is caught, an
exception log entry is appended, and dispatch continues with the next
handler. -/
def runHandlers (event : String) (payload : π) :
    List (Handler π σ) → σ → List LogEntry → σ × List LogEntry
  | [], s, log => (s, log)
  | h :: rest, s, log =>
    match h payload s with
    | (s2, false) => runHandlers event payload rest s2 log
    | (s2, true) => runHandlers event payload rest s2 (log ++ [LogEntry.handlerExc event])

/-- `EventBus.publish`: when no handlers are registered for the event, a
debug entry is logged and nothing is invoked; otherwise every registered
handler is invoked in registration order with per-handler exception
isolation.  The return type carries no error component: every exception
path inside `publish` is caught, so `publish` itself never raises. -/
def publish (subs : Subs π σ) (event : String) (payload : π) (s : σ) :
    σ × List LogEntry :=
  let handlers := getHandlers subs event
  if handlers.isEmpty then
    (s, [LogEntry.noHandlers event])
  else
    runHandlers event payload handlers s []

/-- `Payload = Dict[str, Any] | None`; the `Any` values are kept opaque as
strings. -/
def Payload : Type := Option (List (String × String))

/-- An instrumented handler that appends its own index to the shared state
(recording that — and when — it was invoked) and then either returns
normally or raises, according to `fails`. -/
def probeHandler (i : Nat) (fails : Bool) : Handler π (List Nat) :=
  fun _ s => (s ++ [i], fails)

end EventBus

/-! ## Paths and canonicalization

All models and controllers canonicalize incoming paths with
`path.expanduser().resolve(strict=False)`.  `pathlib` is an external
collaborator; it is modelled lexically on a symlink-free filesystem: a raw
path is an absolute flag plus a component list, `expanduser` substitutes the
home directory for a leading `~` of a relative path, and `resolve` makes the
path absolute and eliminates `.`, `..` and empty components. -/

namespace Fs

/-- A raw filesystem path: an absolute flag plus a list of components, which
may still contain the special components `~` (leading home reference), `.`
and `..`. -/
structure RawPath where
  absolute : Bool
  comps : List String
deriving DecidableEq, Repr

/-- The home directory substituted by `Path.expanduser` for a leading `~`. -/
def homeDir : List String := ["home", "user"]

/-- The working directory against which `Path.resolve` absolutizes relative
paths. -/
def cwdDir : List String := ["work"]

/-- `Path.expanduser`: replaces a leading `~` component of a relative path
with the (absolute) home directory; all other paths are unchanged. -/
def expandUser (p : RawPath) : RawPath :=
  match p with
  | ⟨false, "~" :: rest⟩ => ⟨true, homeDir ++ rest⟩
  | q => q

/-- One step of lexical path normalization: `.` and empty components vanish
and `..` removes the last component (at the root it stays at the root, as
`Path.resolve` does for `/..`). -/
def resolveStep (acc : List String) (comp : String) : List String :=
  if comp = "." ∨ comp = "" then acc
  else if comp = ".." then acc.dropLast
  else acc ++ [comp]

/-- `Path.resolve(strict=False)` modelled lexically: the path is made
absolute (relative paths are taken against the working directory) and its
special components are eliminated.  The result is the component list of an
absolute path. -/
def resolvePath (p : RawPath) : List String :=
  match p with
  | ⟨true, comps⟩ => comps.foldl resolveStep []
  | ⟨false, comps⟩ => (cwdDir ++ comps).foldl resolveStep []

/-- The canonicalization `path.expanduser().resolve(strict=False)` used
throughout the repository. -/
def canon (p : RawPath) : List String :=
  resolvePath (expandUser p)

/-- Embeds a canonical component list back into a raw path: an absolute
`Path` made of plain components. -/
def asPath (comps : List String) : RawPath :=
  ⟨true, comps⟩

/-- A component that survives normalization unchanged. -/
def cleanComp (c : String) : Prop :=
  c ≠ "." ∧ c ≠ ".." ∧ c ≠ ""

instance (c : String) : Decidable (cleanComp c) := by
  unfold cleanComp
  infer_instance

end Fs

/-! ## Tab state (src/models/tab_model.py) -/

namespace Tab

open Fs

/-- `TabEntry`: the per-tab record of file path and dirty flag. -/
structure TabEntry where
  file_path : List String
  is_dirty : Bool
deriving DecidableEq, Repr

/-- Errors raised by `TabState`: the `KeyError` raised for unknown tab ids
by `_get_entry` and `close_tab`. -/
inductive TabError where
  | notFound (tabId : String)
deriving DecidableEq, Repr

/-- `dict[str, TabEntry]` lookup: the first binding of the key. -/
def dictGet (tabs : List (String × TabEntry)) (tabId : String) : Option TabEntry :=
  match tabs.find? (fun p => p.1 == tabId) with
  | some p => some p.2
  | none => none

/-- `dict[str, TabEntry]` assignment: replaces the binding of an existing
key in place, otherwise appends the new binding in insertion order. -/
def dictSet : List (String × TabEntry) → String → TabEntry → List (String × TabEntry)
  | [], tabId, e => [(tabId, e)]
  | p :: rest, tabId, e =>
    if p.1 = tabId then (tabId, e) :: rest else p :: dictSet rest tabId e

/-- `del dict[key]`: removes the binding of the key. -/
def dictDel (tabs : List (String × TabEntry)) (tabId : String) :
    List (String × TabEntry) :=
  tabs.filter (fun p => p.1 ≠ tabId)

/-- The `TabState` model: the dictionary of open tabs. -/
structure State where
  tabs : List (String × TabEntry)
deriving DecidableEq, Repr

/-- `TabState._get_entry`: looks the id up and raises a not-found `KeyError`
when it is unknown. -/
def getEntry (st : State) (tabId : String) : Except TabError TabEntry :=
  match dictGet st.tabs tabId with
  | some e => Except.ok e
  | none => Except.error (TabError.notFound tabId)

/-- `TabState.add_tab`: canonicalizes the path and stores a fresh entry with
`is_dirty = false`.  The fresh identifier produced by `uuid.uuid4().hex` is
modelled as an explicit argument. -/
def addTab (st : State) (freshId : String) (path : RawPath) : State × String :=
  let resolved := canon path
  (⟨dictSet st.tabs freshId ⟨resolved, false⟩⟩, freshId)

/-- `TabState.mark_dirty`: updates the dirty flag of an existing entry,
raising a not-found error for unknown ids. -/
def markDirty (st : State) (tabId : String) (dirty : Bool) :
    Except TabError State :=
  match dictGet st.tabs tabId with
  | some e => Except.ok ⟨dictSet st.tabs tabId ⟨e.file_path, dirty⟩⟩
  | none => Except.error (TabError.notFound tabId)

/-- `TabState.close_tab`: removes the entry, raising a not-found error for
unknown ids. -/
def closeTab (st : State) (tabId : String) : Except TabError State :=
  match dictGet st.tabs tabId with
  | some _ => Except.ok ⟨dictDel st.tabs tabId⟩
  | none => Except.error (TabError.notFound tabId)

/-- `TabState.is_dirty`. -/
def isDirty (st : State) (tabId : String) : Except TabError Bool :=
  (getEntry st tabId).map (fun e => e.is_dirty)

/-- `TabState.get_file_path`. -/
def getFilePath (st : State) (tabId : String) : Except TabError (List String) :=
  (getEntry st tabId).map (fun e => e.file_path)

/-- `TabState.update_path`: canonicalizes the new path and stores it on an
existing entry, raising a not-found error for unknown ids. -/
def updatePath (st : State) (tabId : String) (newPath : RawPath) :
    Except TabError State :=
  match dictGet st.tabs tabId with
  | some e => Except.ok ⟨dictSet st.tabs tabId ⟨canon newPath, e.is_dirty⟩⟩
  | none => Except.error (TabError.notFound tabId)

/-- `TabState.find_tab_id_by_path`: first id (in dictionary iteration order)
whose entry has the canonicalized path. -/
def findTabIdByPath (st : State) (path : RawPath) : Option String :=
  let resolved := canon path
  match st.tabs.find? (fun p => p.2.file_path == resolved) with
  | some p => some p.1
  | none => none

/-- The states of `TabState` produced by any sequence of its mutating
operations, starting from the freshly-constructed empty state. -/
inductive Reachable : State → Prop where
  | init : Reachable ⟨[]⟩
  | add (st : State) (freshId : String) (p : RawPath) :
      Reachable st → Reachable (addTab st freshId p).1
  | mark (st st2 : State) (tabId : String) (d : Bool) :
      Reachable st → markDirty st tabId d = Except.ok st2 → Reachable st2
  | close (st st2 : State) (tabId : String) :
      Reachable st → closeTab st tabId = Except.ok st2 → Reachable st2
  | update (st st2 : State) (tabId : String) (p : RawPath) :
      Reachable st → updatePath st tabId p = Except.ok st2 → Reachable st2

/-- The canonical-path invariant of a tab dictionary: every stored file path
equals its own canonicalization. -/
def CanonicalPaths (st : State) : Prop :=
  ∀ pr ∈ st.tabs, canon (asPath pr.2.file_path) = pr.2.file_path

end Tab

/-! ## Folder model (src/models/folder_model.py) and tree building
(src/controllers/folder_controller.py, src/views/folder_tree.py) -/

namespace Folder

open Fs

/-- A filesystem entry: a regular file with its byte content, or a
directory. -/
inductive FsEntry where
  | file (content : List Nat)
  | dir
deriving DecidableEq, Repr

/-- The filesystem, a finite map from canonical absolute paths (component
lists) to entries. -/
abbrev FS : Type := List (List String × FsEntry)

/-- Filesystem lookup. -/
def lookupFs (fs : FS) (p : List String) : Option FsEntry :=
  match fs.find? (fun q => q.1 == p) with
  | some q => some q.2
  | none => none

/-- `path.exists()`. -/
def existsFs (fs : FS) (p : List String) : Bool :=
  (lookupFs fs p).isSome

/-- `path.is_dir()`. -/
def isDirFs (fs : FS) (p : List String) : Bool :=
  match lookupFs fs p with
  | some FsEntry.dir => true
  | _ => false

/-- The names of the direct children of a path (the entries `iterdir`
yields, in no particular order). -/
def childNames (fs : FS) (p : List String) : List String :=
  (fs.filter (fun q => q.1.dropLast == p && q.1 != p)).map
    (fun q => q.1.getLastD "")

/-- Removes a path from the filesystem (`rmdir` / `unlink`). -/
def removeFs (fs : FS) (p : List String) : FS :=
  fs.filter (fun q => q.1 ≠ p)

/-- Stores an entry at a path (the write of `write_text`, `touch`,
`mkdir`): replaces an existing binding in place, otherwise appends. -/
def setFs : FS → List String → FsEntry → FS
  | [], p, e => [(p, e)]
  | q :: rest, p, e =>
    if q.1 = p then (p, e) :: rest else q :: setFs rest p e

/-- Rewrites one key under a rename of `src` to `dst` (`Path.rename` moves
the path and everything below it). -/
def renameKey (src dst q : List String) : List String :=
  if q.take src.length = src then dst ++ q.drop src.length else q

/-- `Path.rename`: every key at or below `src` moves below `dst`. -/
def renameFs (fs : FS) (src dst : List String) : FS :=
  fs.map (fun q => (renameKey src dst q.1, q.2))

/-- The `FileOperationError` conditions raised by `FolderModel`,
distinguished by the branch that raises them. -/
inductive FolderError where
  | missingTarget
  | dirNotEmpty
  | destExists
  | crossParent
  | missingDir
  | notADir
deriving DecidableEq, Repr

/-- `FolderModel.delete_item`: canonicalizes the path, raises when the
target does not exist or is a non-empty directory, and removes it
otherwise.  All guards run before the removal, so on an error the returned
filesystem is the unchanged input. -/
def deleteItem (fs : FS) (path : RawPath) : FS × Option FolderError :=
  if existsFs fs (canon path) = false then (fs, some FolderError.missingTarget)
  else if isDirFs fs (canon path) then
    if childNames fs (canon path) = [] then (removeFs fs (canon path), none)
    else (fs, some FolderError.dirNotEmpty)
  else (removeFs fs (canon path), none)

/-- `FolderModel.rename_item`: canonicalizes both paths and raises when the
source does not exist, the destination already exists, or the two parents
differ (cross-directory moves are unsupported by design); renames
otherwise.  All guards run before the rename, so on an error the returned
filesystem is the unchanged input. -/
def renameItem (fs : FS) (oldPath newPath : RawPath) : FS × Option FolderError :=
  if existsFs fs (canon oldPath) = false then (fs, some FolderError.missingTarget)
  else if existsFs fs (canon newPath) then (fs, some FolderError.destExists)
  else if (canon oldPath).dropLast ≠ (canon newPath).dropLast then
    (fs, some FolderError.crossParent)
  else (renameFs fs (canon oldPath) (canon newPath), none)

/-- Code-point comparison of two strings, as Python compares `str` (and
hence `Path`) values. -/
def lexLeChars : List Char → List Char → Bool
  | [], _ => true
  | _ :: _, [] => false
  | a :: as, b :: bs =>
    if a.toNat < b.toNat then true
    else if b.toNat < a.toNat then false
    else lexLeChars as bs

/-- `a <= b` on names, in Python string order. -/
def nameLe (a b : String) : Bool :=
  lexLeChars a.toList b.toList

/-- Insertion step of `sorted` on names. -/
def insertName (n : String) : List String → List String
  | [] => [n]
  | m :: rest => if nameLe n m then n :: m :: rest else m :: insertName n rest

/-- `sorted`: the names in ascending (case-sensitive, code-point) order. -/
def sortNames : List String → List String
  | [] => []
  | n :: rest => insertName n (sortNames rest)

/-- `FolderModel.list_directory`: raises when the path does not exist or is
not a directory; otherwise `sorted(path.iterdir())` — the child paths in
plain ascending `Path` order, which for children of one directory is the
case-sensitive code-point order of their names. -/
def listDirectory (fs : FS) (path : RawPath) :
    Except FolderError (List (List String)) :=
  if existsFs fs (canon path) = false then Except.error FolderError.missingDir
  else if isDirFs fs (canon path) = false then Except.error FolderError.notADir
  else Except.ok ((sortNames (childNames fs (canon path))).map
    (fun n => canon path ++ [n]))

/-- `str(Path)` for an absolute path. -/
def pathStr (comps : List String) : String :=
  "/" ++ String.intercalate "/" comps

/-- `resolved.name or str(resolved)` of `FolderController._build_node`:
the last component, or the printed path when the name is empty (root). -/
def nodeName (resolved : List String) : String :=
  match resolved.getLast? with
  | some n => if n = "" then pathStr resolved else n
  | none => pathStr resolved

/-- `FolderNode` of src/views/folder_tree.py: name, absolute path,
directory flag and optional ordered children. -/
inductive FolderNode where
  | node (name : String) (path : List String) (is_directory : Bool)
      (children : Option (List FolderNode))

/-- The name of a node. -/
def FolderNode.name : FolderNode → String
  | .node n _ _ _ => n

/-- The directory flag of a node. -/
def FolderNode.isDir : FolderNode → Bool
  | .node _ _ d _ => d

/-- The children sequence of a node (empty for files). -/
def FolderNode.childList : FolderNode → List FolderNode
  | .node _ _ _ (some cs) => cs
  | .node _ _ _ none => []

/-- The list comprehension of `_build_node` that builds the child nodes in
the order `list_directory` returned them, for a given recursive builder;
the first raised error propagates. -/
def buildChildrenWith (build : RawPath → Except FolderError FolderNode) :
    List (List String) → Except FolderError (List FolderNode)
  | [] => Except.ok []
  | e :: rest =>
    (build (asPath e)).bind (fun nd =>
      (buildChildrenWith build rest).map (fun nds => nd :: nds))

/-- `FolderController._build_node`: canonicalizes the path and builds the
node for it, recursing through `list_directory` for directories (whose
errors propagate, as uncaught Python exceptions do).  The `fuel` argument
is a recursion bound standing for the finite depth of the real filesystem;
with fuel at least that depth the zero case is never reached. -/
def buildNode (fs : FS) : Nat → RawPath → Except FolderError FolderNode
  | 0, path =>
    Except.ok (FolderNode.node (nodeName (canon path)) (canon path)
      (isDirFs fs (canon path))
      (if isDirFs fs (canon path) then some [] else none))
  | fuel + 1, path =>
    if isDirFs fs (canon path) then
      (listDirectory fs (asPath (canon path))).bind (fun entries =>
        (buildChildrenWith (fun q => buildNode fs fuel q) entries).map
          (fun cs => FolderNode.node (nodeName (canon path)) (canon path)
            true (some cs)))
    else
      Except.ok (FolderNode.node (nodeName (canon path)) (canon path)
        false none)

/-- `FolderTree._sort_key`: directories first, then case-insensitive name —
used only by the incremental insertion helpers (`add_node`,
`_insert_sorted`), not by full rebuilds. -/
def sortKey (is_directory : Bool) (name : String) : Nat × String :=
  (if is_directory then 0 else 1, name.toLower)

/-- The ordering the claim states for a rebuilt directory node: every
directory child before every file child.  A list of directory flags
violates it exactly when somewhere a file is followed by a directory. -/
def dirsBeforeFiles (flags : List Bool) : Bool :=
  (flags.zip flags.tail).all (fun pr => pr.1 || !pr.2)

/-- The directory flags of the children of the node built for a path (used
to state ordering facts about concrete trees). -/
def builtChildFlags (fs : FS) (fuel : Nat) (path : RawPath) : List Bool :=
  match buildNode fs fuel path with
  | Except.ok nd => nd.childList.map FolderNode.isDir
  | Except.error _ => []

/-- The child names of the node built for a path. -/
def builtChildNames (fs : FS) (fuel : Nat) (path : RawPath) : List String :=
  match buildNode fs fuel path with
  | Except.ok nd => nd.childList.map FolderNode.name
  | Except.error _ => []

/-- A concrete filesystem with a root directory holding the file `A.txt`
and the directory `b`: `sorted` puts `"A.txt"` (code point 65) before
`"b"` (code point 98), so the rebuilt tree lists a file child before a
directory child. -/
def exTreeFs : FS :=
  [(["r"], FsEntry.dir),
   (["r", "A.txt"], FsEntry.file []),
   (["r", "b"], FsEntry.dir)]

/-- A filesystem well-formed in the sense maintained by the canonicalizing
operations: every key is a list of clean components. -/
def WFKeys (fs : FS) : Prop :=
  ∀ q ∈ fs, ∀ c ∈ q.1, cleanComp c

/-- The tuple comparison `new_key < child_key` performed by
`FolderTree.add_node` / `_insert_sorted` on `_sort_key` values. -/
def keyLt (a b : Nat × String) : Bool :=
  decide (a.1 < b.1) || (a.1 == b.1 && decide (a.2 < b.2))

/-- The node the full rebuild produces for the root of `exTreeFs`. -/
def exTreeNode : FolderNode :=
  FolderNode.node "r" ["r"] true (some
    [FolderNode.node "A.txt" ["r", "A.txt"] false none,
     FolderNode.node "b" ["r", "b"] true (some [])])

end Folder

/-! ## File model (src/models/file_model.py) and text encodings

Python's codec machinery is an external collaborator; the codecs named in
the fallback sequence are modelled concretely over byte lists: strict
UTF-8 (with BOM-stripping `utf-8-sig`), strict UTF-16 with and without
BOM, and a partial model of the legacy `cp932` codec covering its ASCII
plane.  Universal-newline translation and the `_open_files` observability
set are not modelled: neither affects the claims under verification. -/

namespace FileM

open Fs

/-- A Unicode scalar value: what a strict Python text decoder may
produce. -/
def ScalarValue (c : Nat) : Prop :=
  c < 0xD800 ∨ (0xE000 ≤ c ∧ c < 0x110000)

instance (c : Nat) : Decidable (ScalarValue c) := by
  unfold ScalarValue
  infer_instance

/-- UTF-8 encoding of one scalar value (`write_text` with the default
encoding). -/
def utf8EncodeChar (c : Nat) : List Nat :=
  if c < 0x80 then [c]
  else if c < 0x800 then [0xC0 + c / 64, 0x80 + c % 64]
  else if c < 0x10000 then
    [0xE0 + c / 4096, 0x80 + c / 64 % 64, 0x80 + c % 64]
  else
    [0xF0 + c / 262144, 0x80 + c / 4096 % 64, 0x80 + c / 64 % 64,
     0x80 + c % 64]

/-- UTF-8 encoding of a text, given as its code points. -/
def utf8Encode (cs : List Nat) : List Nat :=
  (cs.map utf8EncodeChar).flatten

/-- A UTF-8 continuation byte. -/
def Cont (b : Nat) : Prop :=
  0x80 ≤ b ∧ b < 0xC0

instance (b : Nat) : Decidable (Cont b) := by
  unfold Cont
  infer_instance

/-- One step of strict UTF-8 decoding (Python `utf-8`): given the lead
byte and the remaining bytes, the decoded scalar value and the bytes after
it, or `none` on a malformed, overlong, surrogate or out-of-range
sequence. -/
def utf8DecodeOne (b : Nat) (rest : List Nat) : Option (Nat × List Nat) :=
  if b < 0x80 then some (b, rest)
  else if b < 0xC2 then none
  else if b < 0xE0 then
    match rest with
    | b2 :: rest2 =>
      if Cont b2 then some ((b - 0xC0) * 64 + (b2 - 0x80), rest2) else none
    | [] => none
  else if b < 0xF0 then
    match rest with
    | b2 :: b3 :: rest3 =>
      if Cont b2 ∧ Cont b3 ∧ (b = 0xE0 → 0xA0 ≤ b2)
          ∧ (b = 0xED → b2 < 0xA0) then
        some ((b - 0xE0) * 4096 + (b2 - 0x80) * 64 + (b3 - 0x80), rest3)
      else none
    | _ => none
  else if b < 0xF5 then
    match rest with
    | b2 :: b3 :: b4 :: rest4 =>
      if Cont b2 ∧ Cont b3 ∧ Cont b4 ∧ (b = 0xF0 → 0x90 ≤ b2)
          ∧ (b = 0xF4 → b2 < 0x90) then
        some ((b - 0xF0) * 262144 + (b2 - 0x80) * 4096
          + (b3 - 0x80) * 64 + (b4 - 0x80), rest4)
      else none
    | _ => none
  else none

/-- The strict UTF-8 decoding loop.  Every step consumes at least the lead
byte, so the byte count bounds the recursion; the `fuel` argument carries
that bound and the zero case is never reached from `utf8Decode`. -/
def utf8DecodeF : Nat → List Nat → Option (List Nat)
  | _, [] => some []
  | 0, _ :: _ => none
  | fuel + 1, b :: rest =>
    match utf8DecodeOne b rest with
    | some (c, rest2) => (utf8DecodeF fuel rest2).map (fun t => c :: t)
    | none => none

/-- Strict UTF-8 decoding of a byte sequence to code points. -/
def utf8Decode (bs : List Nat) : Option (List Nat) :=
  utf8DecodeF bs.length bs

/-- `utf-8-sig`: strips one UTF-8 byte-order mark when present, then
strict UTF-8. -/
def utf8SigDecode (bs : List Nat) : Option (List Nat) :=
  match bs with
  | 0xEF :: 0xBB :: 0xBF :: rest => utf8Decode rest
  | _ => utf8Decode bs

/-- The 16-bit code units of a byte sequence (`le` selects the byte
order); truncated data is a decode error.  Byte values are checked to be
below 256, which the bytes of a real file always are. -/
def utf16Units (le : Bool) : List Nat → Option (List Nat)
  | [] => some []
  | [_] => none
  | b1 :: b2 :: rest =>
    if b1 < 256 ∧ b2 < 256 then
      (utf16Units le rest).map
        (fun us => (if le then b2 * 256 + b1 else b1 * 256 + b2) :: us)
    else none

/-- One step of surrogate-pair combination: a non-surrogate unit passes
through; a high surrogate must be followed by a low surrogate and combines
with it; an unpaired surrogate is a decode error (strict Python UTF-16). -/
def combineOne (u : Nat) (rest : List Nat) : Option (Nat × List Nat) :=
  if u < 0xD800 ∨ 0xE000 ≤ u then some (u, rest)
  else if u < 0xDC00 then
    match rest with
    | u2 :: rest2 =>
      if 0xDC00 ≤ u2 ∧ u2 < 0xE000 then
        some (0x10000 + (u - 0xD800) * 1024 + (u2 - 0xDC00), rest2)
      else none
    | [] => none
  else none

/-- The surrogate-combination loop, with the unit count as recursion
fuel (every step consumes at least one unit; the zero case is never
reached from `combineSurrogates`). -/
def combineSurrogatesF : Nat → List Nat → Option (List Nat)
  | _, [] => some []
  | 0, _ :: _ => none
  | fuel + 1, u :: rest =>
    match combineOne u rest with
    | some (c, rest2) => (combineSurrogatesF fuel rest2).map (fun t => c :: t)
    | none => none

/-- Combines the surrogate pairs of a code-unit sequence into scalar
values. -/
def combineSurrogates (us : List Nat) : Option (List Nat) :=
  combineSurrogatesF us.length us

/-- Python `utf-16-le`. -/
def utf16LeDecode (bs : List Nat) : Option (List Nat) :=
  (utf16Units true bs).bind combineSurrogates

/-- Python `utf-16-be`. -/
def utf16BeDecode (bs : List Nat) : Option (List Nat) :=
  (utf16Units false bs).bind combineSurrogates

/-- Python `utf-16`: honors and strips a byte-order mark; without one it
decodes in the machine's (little-endian) order. -/
def utf16Decode (bs : List Nat) : Option (List Nat) :=
  match bs with
  | 0xFF :: 0xFE :: rest => utf16LeDecode rest
  | 0xFE :: 0xFF :: rest => utf16BeDecode rest
  | _ => utf16LeDecode bs

/-- A partial model of the legacy `cp932` codec: its ASCII plane decodes
identically; other bytes are treated as undecodable here (the double-byte
table is an external artifact never reached by the claims). -/
def cp932Decode (bs : List Nat) : Option (List Nat) :=
  if bs.all (fun b => b < 0x80) then some bs else none

/-- The decoders named by the fallback candidate sequence; other encoding
names are outside the model. -/
def decodeBytes (enc : String) (bs : List Nat) : Option (List Nat) :=
  if enc = "utf-8" then utf8Decode bs
  else if enc = "utf-8-sig" then utf8SigDecode bs
  else if enc = "utf-16" then utf16Decode bs
  else if enc = "utf-16-le" then utf16LeDecode bs
  else if enc = "utf-16-be" then utf16BeDecode bs
  else if enc = "cp932" then cp932Decode bs
  else none

/-- Outcome of one `path.read_text(encoding=enc)` attempt: the decoded
text, a `UnicodeDecodeError`, or an `OSError`. -/
inductive ReadOutcome (τ : Type) where
  | ok (t : τ)
  | decodeErr
  | osErr
deriving DecidableEq, Repr

/-- The fixed candidate sequence of `_read_text_with_fallback`. -/
def candidates (primary : String) : List String :=
  [primary, "utf-8-sig", "utf-16", "utf-16-le", "utf-16-be", "cp932"]

/-- The loop of `FileModel._read_text_with_fallback`: candidates already
in the `tried` set are skipped; a `UnicodeDecodeError` adds the candidate
to `tried` and continues; an `OSError` is not caught by the loop and
aborts; a success returns.  An exhausted candidate list raises the final
`UnicodeDecodeError`. -/
def readFallbackLoop (read : String → ReadOutcome τ) :
    List String → List String → ReadOutcome τ
  | [], _tried => ReadOutcome.decodeErr
  | enc :: rest, tried =>
    if enc ∈ tried then readFallbackLoop read rest tried
    else
      match read enc with
      | ReadOutcome.ok t => ReadOutcome.ok t
      | ReadOutcome.osErr => ReadOutcome.osErr
      | ReadOutcome.decodeErr => readFallbackLoop read rest (enc :: tried)

/-- `FileModel._read_text_with_fallback`. -/
def readTextWithFallback (read : String → ReadOutcome τ) (primary : String) :
    ReadOutcome τ :=
  readFallbackLoop read (candidates primary) []

/-- The specification's wording of the fallback: the candidates are
attempted in the fixed order; the first successful decode returns, a
decode failure moves to the next candidate, a read failure aborts. -/
def tryCandidatesSpec (read : String → ReadOutcome τ) :
    List String → ReadOutcome τ
  | [] => ReadOutcome.decodeErr
  | enc :: rest =>
    match read enc with
    | ReadOutcome.ok t => ReadOutcome.ok t
    | ReadOutcome.osErr => ReadOutcome.osErr
    | ReadOutcome.decodeErr => tryCandidatesSpec read rest

/-- The two `FileOperationError` kinds `load_file` raises: a failed read
(`OSError`) and a failed decode (no usable encoding). -/
inductive FileError where
  | loadFailed
  | decodeFailed
deriving DecidableEq, Repr

/-- `path.read_text(encoding=enc)` against the filesystem model: a missing
path or a directory is an `OSError`, undecodable bytes a
`UnicodeDecodeError`. -/
def readText (fs : Folder.FS) (resolved : List String) (enc : String) :
    ReadOutcome (List Nat) :=
  match Folder.lookupFs fs resolved with
  | some (Folder.FsEntry.file bytes) =>
    match decodeBytes enc bytes with
    | some t => ReadOutcome.ok t
    | none => ReadOutcome.decodeErr
  | _ => ReadOutcome.osErr

/-- `FileModel.load_file`: canonicalizes the path, reads through the
fallback sequence, and converts `OSError` / `UnicodeDecodeError` into the
two `FileOperationError` kinds. -/
def loadFile (fs : Folder.FS) (path : RawPath) (enc : String) :
    Except FileError (List Nat) :=
  match readTextWithFallback (readText fs (canon path)) enc with
  | ReadOutcome.ok t => Except.ok t
  | ReadOutcome.osErr => Except.error FileError.loadFailed
  | ReadOutcome.decodeErr => Except.error FileError.decodeFailed

/-- `FileModel.save_file` with the default encoding: canonicalizes the
path and writes the UTF-8 encoding of the text (in the model the write
itself always succeeds). -/
def saveFile (fs : Folder.FS) (path : RawPath) (content : List Nat) :
    Folder.FS :=
  Folder.setFs fs (canon path) (Folder.FsEntry.file (utf8Encode content))

/-- The code points of `"fallback text"`. -/
def fallbackText : List Nat :=
  ("fallback text".toList).map Char.toNat

/-- The bytes Python writes for `"fallback text"` under `utf-16`: a
little-endian byte-order mark followed by the little-endian code units. -/
def fallbackTextUtf16 : List Nat :=
  0xFF :: 0xFE :: (fallbackText.map (fun c => [c % 256, c / 256])).flatten

/-- A filesystem holding one UTF-16-encoded file containing
`"fallback text"`. -/
def scenarioFs : Folder.FS :=
  [(["doc.txt"], Folder.FsEntry.file fallbackTextUtf16)]

end FileM

/-! ## Text helpers (Python `str.strip`) -/

namespace Txt

/-- The ASCII whitespace characters Python's `str.strip` removes (the
additional Unicode space characters of the runtime are outside the
model). -/
def isPyWs (c : Char) : Bool :=
  c == ' ' || c == '\t' || c == '\n' || c == '\r'
    || c.toNat == 11 || c.toNat == 12

/-- Python `str.strip()`. -/
def pstrip (s : List Char) : List Char :=
  ((s.dropWhile isPyWs).reverse.dropWhile isPyWs).reverse

end Txt

/-! ## AI controller (src/controllers/ai_controller.py) -/

namespace AI

open Txt

/-- The errors `generate_code` raises: the validation `ValueError` for a
blank prompt, and the `AIIntegrationError` wrapping any client-building or
client-call failure. -/
inductive GenError where
  | emptyPrompt
  | integrationFailed
deriving DecidableEq, Repr

/-- The minimal client capability: `generate(model, prompt)` returns a
response text or raises. -/
def Client : Type := String → List Char → Except String (List Char)

/-- `AIController.generate_code`: strips the prompt and raises the
validation `ValueError` when nothing remains — before any client is
acquired or invoked; otherwise obtains a client (`_get_client`, which may
lazily build one from the settings and raise) and calls `generate`,
wrapping any failure into the AI-integration error.  Client acquisition is
an explicit function argument so that theorems can quantify over it. -/
def generateCode (getClient : Unit → Except String Client)
    (modelName : String) (prompt : List Char) :
    Except GenError (List Char) :=
  if pstrip prompt = [] then Except.error GenError.emptyPrompt
  else
    match getClient () with
    | Except.error _ => Except.error GenError.integrationFailed
    | Except.ok client =>
      match client modelName (pstrip prompt) with
      | Except.ok t => Except.ok t
      | Except.error _ => Except.error GenError.integrationFailed

end AI

/-! ## Chat handlers (src/controllers/app_controller.py) -/

namespace Chat

open Txt

/-- The backtick character that delimits fenced code blocks. -/
def bt : Char := Char.ofNat 96

/-- The three-character fence delimiter. -/
def fence : List Char := [bt, bt, bt]

/-- The characters of a fence language tag: ASCII word characters plus
`.`, `+` and `-` (the regex character class runs in Unicode mode but only
its ASCII plane is modelled). -/
def isWordTagChar (c : Char) : Bool :=
  ('a' ≤ c && c ≤ 'z') || ('A' ≤ c && c ≤ 'Z') || ('0' ≤ c && c ≤ '9')
    || c == '_' || c == '.' || c == '+' || c == '-'

/-- The lazily-shortest prefix of the text that is followed by a closing
fence (the non-greedy group before the final three backticks, with DOTALL
making newlines ordinary characters); `none` when no closing fence
exists. -/
def takeUntilFence : List Char → Option (List Char)
  | [] => none
  | c :: rest =>
    if (c :: rest).take 3 = fence then some []
    else (takeUntilFence rest).map (fun body => c :: body)

/-- The fenced-block pattern of `_extract_code_block` tried at one
position: three backticks, an optional language tag of word characters
followed by a newline, then the shortest body up to a closing fence.
Returns the regex group (the body). -/
def matchFenceAt : List Char → Option (List Char)
  | c1 :: c2 :: c3 :: rest =>
    if c1 = bt ∧ c2 = bt ∧ c3 = bt then
      match rest.dropWhile isWordTagChar with
      | c :: body => if c = '\n' then takeUntilFence body else none
      | [] => none
    else none
  | _ => none

/-- `re.search`: the pattern tried at every position, leftmost first. -/
def searchFence : List Char → Option (List Char)
  | [] => none
  | c :: rest =>
    match matchFenceAt (c :: rest) with
    | some body => some body
    | none => searchFence rest

/-- `AppController._extract_code_block`: the first fenced code block's
content, stripped of leading and trailing whitespace, or `none` when the
text holds no fenced block. -/
def extractCodeBlock (text : List Char) : Option (List Char) :=
  (searchFence text).map pstrip

/-- A pending chat attachment: the canonical target path and the text that
was read from it. -/
def Attachment : Type := List String × List Char

/-- The text files reachable from the chat edit flow: a map from target
path to text content. -/
def ChatFs : Type := List (List String × List Char)

/-- Stores a file's new text content. -/
def chatSet : ChatFs → List String → List Char → ChatFs
  | [], p, content => [(p, content)]
  | q :: rest, p, content =>
    if q.1 = p then (p, content) :: rest else q :: chatSet rest p content

/-- Reads a file's text content. -/
def chatGet (fs : ChatFs) (p : List String) : Option (List Char) :=
  match fs.find? (fun q => q.1 == p) with
  | some q => some q.2
  | none => none

/-- Modelled from the spec: `FileController.apply_external_edit` is called
by `_handle_chat_edit_requested` but is not defined under src/ (only its
caller appears there).  Per the specification, a successful edit-mode
response "is applied to the target file", so the operation writes the new
content to the attached target path, raising a file-operation error
exactly when the underlying write does — never, in this filesystem
model. -/
def applyExternalEdit (fs : ChatFs) (target : List String)
    (content : List Char) : Except Unit ChatFs :=
  Except.ok (chatSet fs target content)

/-- `Path.name`: the final path component. -/
def pathName (p : List String) : String :=
  p.getLastD ""

/-- One attachment's delimited file block inside the composed prompt. -/
def attachmentSegment (a : Attachment) : List Char :=
  "以下はファイル ".toList ++ (Folder.pathStr a.1).toList
    ++ " の内容です。\n----- ファイル開始 (".toList ++ (pathName a.1).toList
    ++ ") -----\n".toList ++ a.2
    ++ "\n----- ファイル終了 (".toList ++ (pathName a.1).toList
    ++ ") -----".toList

/-- `AppController._compose_chat_prompt`: the message and one delimited
file block per attachment, joined by blank lines. -/
def composeChatPrompt (message : List Char)
    (attachments : List Attachment) : List Char :=
  message
    ++ (attachments.map (fun a => ('\n' :: '\n' :: attachmentSegment a))).flatten

/-- The observable outcome of `_handle_chat_submitted` (each error branch
shows a chat error in the view and returns). -/
inductive SubmitOutcome where
  | responded (response : List Char)
  | emptyMessage
  | aiFailed
deriving DecidableEq, Repr

/-- Whether the submission completed successfully. -/
def SubmitOutcome.isOk : SubmitOutcome → Bool
  | SubmitOutcome.responded _ => true
  | _ => false

/-- `AppController._handle_chat_submitted`, with the AI call
(`AIController.handle_chat_submit`) as an injected oracle: a blank message
or a failed AI call returns with the pending attachments untouched; on
success the pending attachment list is cleared. -/
def handleChatSubmitted (ai : List Char → Except Unit (List Char))
    (message : List Char) (pending : List Attachment) :
    SubmitOutcome × List Attachment :=
  if pstrip message = [] then (SubmitOutcome.emptyMessage, pending)
  else
    match ai (composeChatPrompt (pstrip message) pending) with
    | Except.error _ => (SubmitOutcome.aiFailed, pending)
    | Except.ok response => (SubmitOutcome.responded response, [])

/-- The observable outcome of `_handle_chat_edit_requested`. -/
inductive EditOutcome where
  | applied
  | emptyInstruction
  | noAttachment
  | tooManyAttachments
  | aiFailed
  | applyFailed
deriving DecidableEq, Repr

/-- Whether the edit completed successfully. -/
def EditOutcome.isOk : EditOutcome → Bool
  | EditOutcome.applied => true
  | _ => false

/-- The suffix the handler appends to the edit instruction, asking the
model to answer with a code block. -/
def editSuffix : List Char :=
  '\n' :: "ソースコードはコードブロックで出力してください。".toList

/-- `AppController._handle_chat_edit_requested`, with the AI call and the
file application (`FileController.apply_external_edit`) as injected
dependencies: validates the instruction and the single attachment, submits
the composed prompt, takes the first fenced code block of the response
(the whole response when there is none) as the new content, applies it to
the attached target file, and clears the pending attachments only when all
of that succeeded. -/
def handleChatEditRequested (ai : List Char → Except Unit (List Char))
    (applyFn : ChatFs → List String → List Char → Except Unit ChatFs)
    (instruction : List Char) (pending : List Attachment) (fs : ChatFs) :
    EditOutcome × List Attachment × ChatFs :=
  if pstrip instruction = [] then (EditOutcome.emptyInstruction, pending, fs)
  else
    match pending with
    | [] => (EditOutcome.noAttachment, pending, fs)
    | [a] =>
      match ai (composeChatPrompt (pstrip instruction ++ editSuffix) [a]) with
      | Except.error _ => (EditOutcome.aiFailed, pending, fs)
      | Except.ok response =>
        match applyFn fs a.1 ((extractCodeBlock response).getD response) with
        | Except.error _ => (EditOutcome.applyFailed, pending, fs)
        | Except.ok fs2 => (EditOutcome.applied, [], fs2)
    | _ => (EditOutcome.tooManyAttachments, pending, fs)

end Chat

end MyEditor

-- ===== end of definitions, start of theorems =====

namespace MyEditor

namespace EventBus

theorem runHandlers_probe (event : String) (payload : π)
    (specs : List (Nat × Bool)) (s : List Nat) (log : List LogEntry) :
    runHandlers event payload (specs.map (fun p => probeHandler p.1 p.2)) s log
      = (s ++ specs.map Prod.fst,
         log ++ (specs.filter (fun p => p.2)).map
           (fun _ => LogEntry.handlerExc event)) := by
  induction specs generalizing s log with
  | nil => simp [runHandlers]
  | cons hd tl ih =>
    cases hfail : hd.2 with
    | false =>
      simp [runHandlers, probeHandler, hfail, ih]
    | true =>
      simp [runHandlers, probeHandler, hfail, ih]

/-- C1: for every event name, every payload and every list of registered
handlers (modelled by probe handlers with arbitrary raise/return behavior),
`EventBus.publish` invokes each currently-registered handler exactly once in
registration order (the state trace is exactly the list of handler indices
in order, raising handlers included); each raising handler contributes one
caught-and-logged exception entry while the remaining handlers still run;
and with zero subscribers `publish` returns with the state untouched and
only a debug log entry.  `publish` returns a plain pair — it has no error
outcome, so it never raises. -/
theorem publish_invokes_each_handler_once_in_order :
    ∀ (event : String) (payload : Payload) (specs : List (Nat × Bool))
      (s : List Nat),
      publish [(event, specs.map (fun p => probeHandler p.1 p.2))] event payload s
        = (s ++ specs.map Prod.fst,
           if specs.isEmpty then [LogEntry.noHandlers event]
           else (specs.filter (fun p => p.2)).map
             (fun _ => LogEntry.handlerExc event))
      ∧ publish ([] : Subs Payload (List Nat)) event payload s
          = (s, [LogEntry.noHandlers event]) := by
  intro event payload specs s
  constructor
  · cases specs with
    | nil => simp [publish, getHandlers]
    | cons hd tl =>
      have h := runHandlers_probe event payload (hd :: tl) s []
      simpa [publish, getHandlers] using h
  · simp [publish, getHandlers]

end EventBus

namespace Fs

theorem resolveStep_clean {acc : List String} (h : ∀ c ∈ acc, cleanComp c)
    (comp : String) : ∀ c ∈ resolveStep acc comp, cleanComp c := by
  intro c hc
  unfold resolveStep at hc
  by_cases h1 : comp = "." ∨ comp = ""
  · simp [h1] at hc
    exact h c hc
  · simp [h1] at hc
    by_cases h2 : comp = ".."
    · simp [h2] at hc
      exact h c (List.dropLast_subset acc hc)
    · simp [h2] at hc
      rcases hc with hc | hc
      · exact h c hc
      · subst hc
        exact ⟨fun h3 => h1 (Or.inl h3), h2, fun h3 => h1 (Or.inr h3)⟩

theorem foldl_resolveStep_clean (comps : List String) :
    ∀ (acc : List String), (∀ c ∈ acc, cleanComp c) →
      ∀ c ∈ comps.foldl resolveStep acc, cleanComp c := by
  induction comps with
  | nil => intro acc h; simpa using h
  | cons hd tl ih =>
    intro acc h
    exact ih (resolveStep acc hd) (resolveStep_clean h hd)

/-- Every canonicalized path consists of clean components only. -/
theorem canon_clean (p : RawPath) : ∀ c ∈ canon p, cleanComp c := by
  unfold canon resolvePath
  rcases expandUser p with ⟨abs, comps⟩
  cases abs
  · exact foldl_resolveStep_clean _ [] (by simp)
  · exact foldl_resolveStep_clean _ [] (by simp)

theorem foldl_resolveStep_of_clean (comps : List String)
    (h : ∀ c ∈ comps, cleanComp c) :
    ∀ acc, comps.foldl resolveStep acc = acc ++ comps := by
  induction comps with
  | nil => intro acc; simp
  | cons hd tl ih =>
    intro acc
    have hhd := h hd (by simp)
    have step : resolveStep acc hd = acc ++ [hd] := by
      unfold resolveStep
      rcases hhd with ⟨h1, h2, h3⟩
      simp [h1, h2, h3]
    rw [List.foldl_cons, step, ih (fun c hc => h c (by simp [hc]))]
    simp

/-- Canonicalization of an already-clean absolute path is the identity. -/
theorem canon_asPath_of_clean {comps : List String}
    (h : ∀ c ∈ comps, cleanComp c) : canon (asPath comps) = comps := by
  unfold canon asPath expandUser resolvePath
  simpa using foldl_resolveStep_of_clean comps h []

/-- Canonicalization is idempotent. -/
theorem canon_canon (p : RawPath) : canon (asPath (canon p)) = canon p :=
  canon_asPath_of_clean (canon_clean p)

end Fs

namespace Tab

open Fs

theorem dictGet_dictSet_self (tabs : List (String × TabEntry))
    (tabId : String) (e : TabEntry) :
    dictGet (dictSet tabs tabId e) tabId = some e := by
  induction tabs with
  | nil => simp [dictSet, dictGet]
  | cons hd tl ih =>
    by_cases h : hd.1 = tabId
    · simp [dictSet, dictGet, h]
    · simpa [dictSet, dictGet, h] using ih

theorem dictGet_dictDel_self (tabs : List (String × TabEntry))
    (tabId : String) : dictGet (dictDel tabs tabId) tabId = none := by
  unfold dictGet
  have h : (dictDel tabs tabId).find? (fun p => p.1 == tabId) = none := by
    rw [List.find?_eq_none]
    intro p hp
    unfold dictDel at hp
    have := List.of_mem_filter hp
    simpa using this
  simp [h]

theorem mem_dictSet (tabs : List (String × TabEntry)) (tabId : String)
    (e : TabEntry) :
    ∀ pr ∈ dictSet tabs tabId e, pr ∈ tabs ∨ pr = (tabId, e) := by
  induction tabs with
  | nil => simp [dictSet]
  | cons hd tl ih =>
    intro pr hpr
    by_cases h : hd.1 = tabId
    · simp [dictSet, h] at hpr
      rcases hpr with hpr | hpr
      · right; simp [hpr]
      · left; simp [hpr]
    · simp [dictSet, h] at hpr
      rcases hpr with hpr | hpr
      · left; simp [hpr]
      · rcases ih pr hpr with h2 | h2
        · left; simp [h2]
        · right; exact h2

theorem dictGet_mem (tabs : List (String × TabEntry)) (tabId : String)
    (e : TabEntry) (h : dictGet tabs tabId = some e) :
    ∃ pr ∈ tabs, pr.2 = e := by
  unfold dictGet at h
  cases hfind : tabs.find? (fun p => p.1 == tabId) with
  | none => rw [hfind] at h; simp at h
  | some pr =>
    rw [hfind] at h
    simp at h
    exact ⟨pr, List.mem_of_find?_eq_some hfind, h⟩

/-- C4: for every tab id known to `TabState`, `mark_dirty(id, true)`
followed by `is_dirty(id)` returns `true`; after a successful
`close_tab(id)` every lookup on `id` (`is_dirty`, `get_file_path`,
`mark_dirty`, `update_path`, `close_tab`) fails with a not-found error; and
every lookup with an id that is not in the dictionary (never issued or
already closed) fails with a not-found error. -/
theorem tabState_lookup_contract (st : State) (tabId : String) :
    (∀ e, dictGet st.tabs tabId = some e →
       ∃ st2, markDirty st tabId true = Except.ok st2
         ∧ isDirty st2 tabId = Except.ok true)
    ∧ (∀ st2, closeTab st tabId = Except.ok st2 →
         isDirty st2 tabId = Except.error (TabError.notFound tabId)
         ∧ getFilePath st2 tabId = Except.error (TabError.notFound tabId)
         ∧ (∀ d, markDirty st2 tabId d = Except.error (TabError.notFound tabId))
         ∧ (∀ p, updatePath st2 tabId p = Except.error (TabError.notFound tabId))
         ∧ closeTab st2 tabId = Except.error (TabError.notFound tabId))
    ∧ (dictGet st.tabs tabId = none →
         isDirty st tabId = Except.error (TabError.notFound tabId)
         ∧ getFilePath st tabId = Except.error (TabError.notFound tabId)
         ∧ (∀ d, markDirty st tabId d = Except.error (TabError.notFound tabId))
         ∧ (∀ p, updatePath st tabId p = Except.error (TabError.notFound tabId))
         ∧ closeTab st tabId = Except.error (TabError.notFound tabId)) := by
  refine ⟨?_, ?_, ?_⟩
  · intro e he
    refine ⟨⟨dictSet st.tabs tabId ⟨e.file_path, true⟩⟩, ?_, ?_⟩
    · simp [markDirty, he]
    · simp [isDirty, getEntry, dictGet_dictSet_self, Except.map]
  · intro st2 hclose
    unfold closeTab at hclose
    cases hget : dictGet st.tabs tabId with
    | none => rw [hget] at hclose; simp at hclose
    | some e =>
      rw [hget] at hclose
      simp at hclose
      have hnone : dictGet st2.tabs tabId = none := by
        rw [← hclose]
        exact dictGet_dictDel_self st.tabs tabId
      exact ⟨by simp [isDirty, getEntry, hnone, Except.map],
        by simp [getFilePath, getEntry, hnone, Except.map],
        fun d => by simp [markDirty, hnone],
        fun p => by simp [updatePath, hnone],
        by simp [closeTab, hnone]⟩
  · intro hnone
    exact ⟨by simp [isDirty, getEntry, hnone, Except.map],
      by simp [getFilePath, getEntry, hnone, Except.map],
      fun d => by simp [markDirty, hnone],
      fun p => by simp [updatePath, hnone],
      by simp [closeTab, hnone]⟩

/-- Witness for C4 at a concrete state: one open tab with id `"a"`, and the
unknown id `"zz"`. -/
theorem tabState_lookup_contract_witness :
    (∃ st2,
       markDirty ⟨[("a", ⟨["f"], false⟩)]⟩ "a" true = Except.ok st2
       ∧ isDirty st2 "a" = Except.ok true)
    ∧ isDirty ⟨[("a", ⟨["f"], false⟩)]⟩ "zz"
        = Except.error (TabError.notFound "zz")
    ∧ isDirty (⟨[]⟩ : State) "a" = Except.error (TabError.notFound "a") := by
  refine ⟨(tabState_lookup_contract ⟨[("a", ⟨["f"], false⟩)]⟩ "a").1
      ⟨["f"], false⟩ (by decide), ?_, ?_⟩
  · exact ((tabState_lookup_contract ⟨[("a", ⟨["f"], false⟩)]⟩ "zz").2.2
      (by decide)).1
  · exact ((tabState_lookup_contract ⟨[]⟩ "a").2.2 (by decide)).1

/-- C9: in every reachable `TabState` (any sequence of `add_tab`,
`mark_dirty`, `update_path`, `close_tab` calls starting from the empty
state), every stored file path equals its own canonicalization: `add_tab`
and `update_path` store only canonicalized paths, and no other operation
changes a stored path. -/
theorem tabState_paths_canonical (st : State) (h : Reachable st) :
    CanonicalPaths st := by
  induction h with
  | init => intro pr hpr; simp at hpr
  | add st freshId p hr ih =>
    intro pr hpr
    rcases mem_dictSet st.tabs freshId ⟨canon p, false⟩ pr hpr with h1 | h1
    · exact ih pr h1
    · subst h1
      exact canon_canon p
  | mark st st2 tabId d hr heq ih =>
    unfold markDirty at heq
    cases hget : dictGet st.tabs tabId with
    | none => rw [hget] at heq; simp at heq
    | some e =>
      rw [hget] at heq
      simp at heq
      intro pr hpr
      rw [← heq] at hpr
      rcases mem_dictSet st.tabs tabId ⟨e.file_path, d⟩ pr hpr with h1 | h1
      · exact ih pr h1
      · subst h1
        obtain ⟨pr0, hpr0, hpr0e⟩ := dictGet_mem st.tabs tabId e hget
        have := ih pr0 hpr0
        rw [hpr0e] at this
        simpa using this
  | close st st2 tabId hr heq ih =>
    unfold closeTab at heq
    cases hget : dictGet st.tabs tabId with
    | none => rw [hget] at heq; simp at heq
    | some e =>
      rw [hget] at heq
      simp at heq
      intro pr hpr
      rw [← heq] at hpr
      unfold dictDel at hpr
      exact ih pr (List.mem_of_mem_filter hpr)
  | update st st2 tabId p hr heq ih =>
    unfold updatePath at heq
    cases hget : dictGet st.tabs tabId with
    | none => rw [hget] at heq; simp at heq
    | some e =>
      rw [hget] at heq
      simp at heq
      intro pr hpr
      rw [← heq] at hpr
      rcases mem_dictSet st.tabs tabId ⟨canon p, e.is_dirty⟩ pr hpr with h1 | h1
      · exact ih pr h1
      · subst h1
        exact canon_canon p

/-- Witness for C9: the state reached by one `add_tab` call satisfies the
canonical-path invariant. -/
theorem tabState_paths_canonical_witness :
    CanonicalPaths (addTab ⟨[]⟩ "t" ⟨true, ["a"]⟩).1 :=
  tabState_paths_canonical _
    (Reachable.add ⟨[]⟩ "t" ⟨true, ["a"]⟩ Reachable.init)

end Tab

namespace Folder

open Fs

theorem isDirFs_exists (fs : FS) (p : List String) (h : isDirFs fs p = true) :
    existsFs fs p = true := by
  unfold isDirFs at h
  unfold existsFs
  cases hl : lookupFs fs p with
  | none => rw [hl] at h; simp at h
  | some e => simp [hl]

/-- C5: deleting an existing non-empty directory always fails with the
file-operation error and leaves the filesystem unchanged, and renaming
across different parent directories always fails with a file-operation
error and leaves the filesystem unchanged (the guards run before any
mutation). -/
theorem folderModel_refuses_ambiguous_ops (fs : FS) :
    (∀ path : RawPath, isDirFs fs (canon path) = true →
       childNames fs (canon path) ≠ [] →
       deleteItem fs path = (fs, some FolderError.dirNotEmpty))
    ∧ (∀ oldPath newPath : RawPath,
         (canon oldPath).dropLast ≠ (canon newPath).dropLast →
         (renameItem fs oldPath newPath).1 = fs
         ∧ (renameItem fs oldPath newPath).2.isSome = true) := by
  constructor
  · intro path hdir hne
    have hex := isDirFs_exists fs (canon path) hdir
    unfold deleteItem
    simp [hex, hdir, hne]
  · intro oldPath newPath hpar
    unfold renameItem
    by_cases h1 : existsFs fs (canon oldPath) = false
    · simp [h1]
    · by_cases h2 : existsFs fs (canon newPath)
      · simp [h1, h2]
      · simp [h1, h2, hpar]

/-- Witness for C5: a directory `d` holding a file `x` cannot be deleted,
and `d/x` cannot be renamed to `e/x`. -/
theorem folderModel_refuses_ambiguous_ops_witness :
    deleteItem [(["d"], FsEntry.dir), (["d", "x"], FsEntry.file [])]
        ⟨true, ["d"]⟩
      = ([(["d"], FsEntry.dir), (["d", "x"], FsEntry.file [])],
         some FolderError.dirNotEmpty)
    ∧ (renameItem [(["d"], FsEntry.dir), (["d", "x"], FsEntry.file [])]
         ⟨true, ["d", "x"]⟩ ⟨true, ["e", "x"]⟩).2.isSome = true := by
  constructor
  · exact (folderModel_refuses_ambiguous_ops _).1 ⟨true, ["d"]⟩
      (by decide) (by decide)
  · exact ((folderModel_refuses_ambiguous_ops _).2 ⟨true, ["d", "x"]⟩
      ⟨true, ["e", "x"]⟩ (by decide)).2

/-- Counterexample to C7: rebuilding the tree for `exTreeFs` lists the file
child `A.txt` (flag `false`) before the directory child `b` (flag `true`):
`_build_node` keeps `list_directory`'s plain sorted order and `populate`
preserves it, so directory children do not come first. -/
theorem folderTree_rebuild_not_dirs_first :
    builtChildFlags exTreeFs 2 ⟨true, ["r"]⟩ = [false, true]
    ∧ dirsBeforeFiles (builtChildFlags exTreeFs 2 ⟨true, ["r"]⟩) = false := by
  constructor
  · rfl
  · rfl

theorem lexLeChars_total (a b : List Char) :
    lexLeChars a b = true ∨ lexLeChars b a = true := by
  induction a generalizing b with
  | nil => left; rfl
  | cons c cs ih =>
    cases b with
    | nil => right; rfl
    | cons d ds =>
      by_cases h1 : c.toNat < d.toNat
      · left; simp [lexLeChars, h1]
      · by_cases h2 : d.toNat < c.toNat
        · right; simp [lexLeChars, h2]
        · rcases ih ds with h | h
          · left; simp [lexLeChars, h1, h2, h]
          · right; simp [lexLeChars, h1, h2, h]

theorem nameLe_total (a b : String) :
    nameLe a b = true ∨ nameLe b a = true :=
  lexLeChars_total a.toList b.toList

theorem chain'_insertName (n : String) (l : List String)
    (h : List.Chain' (fun a b => nameLe a b = true) l) :
    List.Chain' (fun a b => nameLe a b = true) (insertName n l) := by
  induction l with
  | nil => simp [insertName]
  | cons m rest ih =>
    by_cases hle : nameLe n m = true
    · rw [insertName, if_pos hle]
      exact List.chain'_cons.mpr ⟨hle, h⟩
    · have hmn : nameLe m n = true := by
        rcases nameLe_total n m with h1 | h1
        · exact absurd h1 hle
        · exact h1
      rw [insertName, if_neg hle]
      have hins := ih (List.Chain'.tail h)
      cases rest with
      | nil =>
        rw [show insertName n [] = [n] from rfl]
        exact List.chain'_cons.mpr ⟨hmn, List.chain'_singleton n⟩
      | cons k ks =>
        by_cases hnk : nameLe n k = true
        · rw [show insertName n (k :: ks) = n :: k :: ks from by
            rw [insertName, if_pos hnk]] at hins ⊢
          exact List.chain'_cons.mpr ⟨hmn, hins⟩
        · rw [show insertName n (k :: ks) = k :: insertName n ks from by
            rw [insertName, if_neg hnk]] at hins ⊢
          have hmk : nameLe m k = true := (List.chain'_cons.mp h).1
          exact List.chain'_cons.mpr ⟨hmk, hins⟩

theorem sortNames_chain (l : List String) :
    List.Chain' (fun a b => nameLe a b = true) (sortNames l) := by
  induction l with
  | nil => simp [sortNames]
  | cons n rest ih => exact chain'_insertName n (sortNames rest) ih

theorem mem_sortNames {a : String} {l : List String} :
    a ∈ sortNames l ↔ a ∈ l := by
  induction l with
  | nil => simp [sortNames]
  | cons n rest ih =>
    have hmem : ∀ (m : String) (ls : List String),
        a ∈ insertName m ls ↔ a = m ∨ a ∈ ls := by
      intro m ls
      induction ls with
      | nil => simp [insertName]
      | cons k ks ihk =>
        by_cases hle : nameLe m k = true
        · simp [insertName, hle]
        · simp [insertName, hle, ihk]
          tauto
    rw [sortNames, hmem n (sortNames rest), ih]
    simp

theorem getLastD_mem (l : List String) (d : String) (h : l ≠ []) :
    l.getLastD d ∈ l := by
  induction l generalizing d with
  | nil => exact absurd rfl h
  | cons a rest ih =>
    rw [List.getLastD_cons]
    cases rest with
    | nil => simp [List.getLastD]
    | cons b bs => exact List.mem_cons_of_mem a (ih a (by simp))

theorem childNames_clean (fs : FS) (hwf : WFKeys fs) (p : List String) :
    ∀ n ∈ childNames fs p, cleanComp n := by
  intro n hn
  unfold childNames at hn
  obtain ⟨q, hq, hqn⟩ := List.mem_map.mp hn
  have hqfs := List.mem_of_mem_filter hq
  have hpred := List.of_mem_filter hq
  simp only [Bool.and_eq_true, beq_iff_eq, bne_iff_ne, ne_eq] at hpred
  have hq1ne : q.1 ≠ [] := by
    intro hnil
    rcases hpred with ⟨hdrop, hne⟩
    rw [hnil] at hdrop
    simp at hdrop
    exact hne (by rw [hnil, hdrop])
  have hlast : q.1.getLastD "" ∈ q.1 := getLastD_mem q.1 "" hq1ne
  rw [← hqn]
  exact hwf q hqfs _ hlast

theorem listDirectory_of_dir (fs : FS) (p : RawPath)
    (h : isDirFs fs (canon p) = true) :
    listDirectory fs p = Except.ok
      ((sortNames (childNames fs (canon p))).map (fun n => canon p ++ [n])) := by
  have hex := isDirFs_exists fs (canon p) h
  unfold listDirectory
  simp [hex, h]

theorem buildNode_name (fs : FS) (fuel : Nat) (p : RawPath) (nd : FolderNode)
    (h : buildNode fs fuel p = Except.ok nd) :
    nd.name = nodeName (canon p) := by
  cases fuel with
  | zero =>
    simp only [buildNode] at h
    cases h
    rfl
  | succ fuel =>
    simp only [buildNode] at h
    by_cases hdir : isDirFs fs (canon p)
    · rw [if_pos hdir] at h
      cases hld : listDirectory fs (asPath (canon p)) with
      | error e => rw [hld] at h; simp [Except.bind] at h
      | ok entries =>
        rw [hld] at h
        simp only [Except.bind] at h
        cases hbc : buildChildrenWith (fun q => buildNode fs fuel q) entries with
        | error e => rw [hbc] at h; simp [Except.map] at h
        | ok cs =>
          rw [hbc] at h
          simp only [Except.map] at h
          cases h
          rfl
    · rw [if_neg hdir] at h
      cases h
      rfl

theorem buildChildrenWith_names (fs : FS) (fuel : Nat)
    (entries : List (List String)) (nds : List FolderNode)
    (h : buildChildrenWith (fun q => buildNode fs fuel q) entries
      = Except.ok nds) :
    nds.map FolderNode.name
      = entries.map (fun e => nodeName (canon (asPath e))) := by
  induction entries generalizing nds with
  | nil =>
    simp only [buildChildrenWith] at h
    cases h
    rfl
  | cons e rest ih =>
    simp only [buildChildrenWith] at h
    cases hbn : buildNode fs fuel (asPath e) with
    | error err => rw [hbn] at h; simp [Except.bind] at h
    | ok nd =>
      rw [hbn] at h
      simp only [Except.bind] at h
      cases hbc : buildChildrenWith (fun q => buildNode fs fuel q) rest with
      | error err => rw [hbc] at h; simp [Except.map] at h
      | ok nds0 =>
        rw [hbc] at h
        simp only [Except.map] at h
        cases h
        simp only [List.map_cons]
        rw [ih nds0 hbc, buildNode_name fs fuel (asPath e) nd hbn]

/-- C7 as amended: on every full tree refresh (`load_initial_tree` and the
rebuilds after `handle_create` / `handle_delete`, all of which go through
`_build_node`), the children of a directory node appear in plain ascending
name order — case-sensitive code-point order with files and directories
interleaved — not directories-first; the directories-first,
case-insensitive `_sort_key` ordering governs only the incremental
insertion helpers of the view (`add_node` / `_insert_sorted`), whose key
for a directory always compares below the key for a file. -/
theorem folderTree_rebuild_children_name_sorted
    (fs : FS) (hwf : WFKeys fs) (fuel : Nat) (path : RawPath)
    (nd : FolderNode) (h : buildNode fs (fuel + 1) path = Except.ok nd) :
    List.Chain' (fun a b => nameLe a b = true)
      (nd.childList.map FolderNode.name)
    ∧ ∀ n m : String, keyLt (sortKey true n) (sortKey false m) = true := by
  constructor
  · simp only [buildNode] at h
    by_cases hdir : isDirFs fs (canon path)
    · rw [if_pos hdir] at h
      have hcanon : canon (asPath (canon path)) = canon path :=
        canon_asPath_of_clean (canon_clean path)
      have hdir2 : isDirFs fs (canon (asPath (canon path))) = true := by
        rw [hcanon]; exact hdir
      have hld := listDirectory_of_dir fs (asPath (canon path)) hdir2
      rw [hcanon] at hld
      rw [hld] at h
      simp only [Except.bind] at h
      cases hbc : buildChildrenWith (fun q => buildNode fs fuel q)
          ((sortNames (childNames fs (canon path))).map
            (fun n => canon path ++ [n])) with
      | error e => rw [hbc] at h; simp [Except.map] at h
      | ok cs =>
        rw [hbc] at h
        simp only [Except.map] at h
        cases h
        have hnames := buildChildrenWith_names fs fuel _ cs hbc
        have hcl : (FolderNode.node (nodeName (canon path)) (canon path) true
            (some cs)).childList = cs := rfl
        rw [hcl, hnames, List.map_map]
        have hclean := canon_clean path
        have hpt : ∀ n ∈ sortNames (childNames fs (canon path)),
            ((fun e => nodeName (canon (asPath e)))
              ∘ (fun n => canon path ++ [n])) n = n := by
          intro n hn
          have hcn : cleanComp n :=
            childNames_clean fs hwf (canon path) n (mem_sortNames.mp hn)
          have hallclean : ∀ c ∈ canon path ++ [n], cleanComp c := by
            intro c hc
            rcases List.mem_append.mp hc with hc | hc
            · exact hclean c hc
            · simp at hc
              rw [hc]
              exact hcn
          show nodeName (canon (asPath (canon path ++ [n]))) = n
          rw [canon_asPath_of_clean hallclean]
          unfold nodeName
          rw [List.getLast?_concat]
          simp [hcn.2.2]
        rw [List.map_congr_left hpt]
        simpa using sortNames_chain (childNames fs (canon path))
    · rw [if_neg hdir] at h
      cases h
      simp [FolderNode.childList]
  · intro n m
    simp [keyLt, sortKey]

/-- Witness for the amended C7 at the concrete filesystem `exTreeFs`: the
rebuilt root node has its children in plain ascending name order. -/
theorem folderTree_rebuild_children_name_sorted_witness :
    List.Chain' (fun a b => nameLe a b = true)
      (exTreeNode.childList.map FolderNode.name) :=
  (folderTree_rebuild_children_name_sorted exTreeFs
    (by unfold WFKeys; decide) 1 ⟨true, ["r"]⟩ exTreeNode (by rfl)).1

end Folder

namespace FileM

open Fs

theorem readFallbackLoop_spec (read : String → ReadOutcome τ)
    (cands : List String) :
    ∀ tried : List String, (∀ e ∈ tried, read e = ReadOutcome.decodeErr) →
      readFallbackLoop read cands tried = tryCandidatesSpec read cands := by
  induction cands with
  | nil => intro tried _; rfl
  | cons enc rest ih =>
    intro tried htried
    by_cases hmem : enc ∈ tried
    · rw [readFallbackLoop, if_pos hmem, tryCandidatesSpec, htried enc hmem]
      exact ih tried htried
    · rw [readFallbackLoop, if_neg hmem, tryCandidatesSpec]
      cases hr : read enc with
      | ok t => rfl
      | osErr => rfl
      | decodeErr =>
        refine ih (enc :: tried) ?_
        intro e he
        rcases List.mem_cons.mp he with he | he
        · rw [he]; exact hr
        · exact htried e he

theorem tryCandidatesSpec_append_decodeErr (read : String → ReadOutcome τ)
    (pre : List String) (h : ∀ e ∈ pre, read e = ReadOutcome.decodeErr)
    (rest : List String) :
    tryCandidatesSpec read (pre ++ rest) = tryCandidatesSpec read rest := by
  induction pre with
  | nil => rfl
  | cons p ps ih =>
    rw [List.cons_append]
    have hp := h p (by simp)
    simp only [tryCandidatesSpec, hp]
    exact ih (fun e he => h e (by simp [he]))

theorem tryCandidatesSpec_eq_elim (read : String → ReadOutcome τ)
    (cands : List String) (o : ReadOutcome τ)
    (ho : o ≠ ReadOutcome.decodeErr)
    (h : tryCandidatesSpec read cands = o) :
    ∃ pre enc post, cands = pre ++ enc :: post
      ∧ (∀ e ∈ pre, read e = ReadOutcome.decodeErr) ∧ read enc = o := by
  induction cands with
  | nil =>
    simp only [tryCandidatesSpec] at h
    exact absurd h.symm ho
  | cons c rest ih =>
    cases hr : read c with
    | ok t =>
      simp only [tryCandidatesSpec, hr] at h
      exact ⟨[], c, rest, rfl, by simp, by rw [hr, h]⟩
    | osErr =>
      simp only [tryCandidatesSpec, hr] at h
      exact ⟨[], c, rest, rfl, by simp, by rw [hr, h]⟩
    | decodeErr =>
      simp only [tryCandidatesSpec, hr] at h
      obtain ⟨pre, enc, post, hsplit, hpre, henc⟩ := ih h
      refine ⟨c :: pre, enc, post, by rw [hsplit]; rfl, ?_, henc⟩
      intro e he
      rcases List.mem_cons.mp he with he | he
      · rw [he]; exact hr
      · exact hpre e he

theorem tryCandidatesSpec_stops_iff (read : String → ReadOutcome τ)
    (cands : List String) (o : ReadOutcome τ)
    (ho : o ≠ ReadOutcome.decodeErr) :
    tryCandidatesSpec read cands = o ↔
      ∃ pre enc post, cands = pre ++ enc :: post
        ∧ (∀ e ∈ pre, read e = ReadOutcome.decodeErr)
        ∧ read enc = o := by
  constructor
  · exact tryCandidatesSpec_eq_elim read cands o ho
  · rintro ⟨pre, enc, post, hsplit, hpre, henc⟩
    rw [hsplit, tryCandidatesSpec_append_decodeErr read pre hpre]
    cases o with
    | ok t => simp only [tryCandidatesSpec, henc]
    | osErr => simp only [tryCandidatesSpec, henc]
    | decodeErr => exact absurd rfl ho

theorem tryCandidatesSpec_decodeErr_iff (read : String → ReadOutcome τ)
    (cands : List String) :
    tryCandidatesSpec read cands = ReadOutcome.decodeErr ↔
      ∀ e ∈ cands, read e = ReadOutcome.decodeErr := by
  induction cands with
  | nil => simp [tryCandidatesSpec]
  | cons c rest ih =>
    cases hr : read c with
    | ok t =>
      simp only [tryCandidatesSpec, hr]
      constructor
      · intro h; cases h
      · intro h
        have hc := h c (by simp)
        rw [hr] at hc
        exact hc
    | osErr =>
      simp only [tryCandidatesSpec, hr]
      constructor
      · intro h; cases h
      · intro h
        have hc := h c (by simp)
        rw [hr] at hc
        exact hc
    | decodeErr =>
      simp only [tryCandidatesSpec, hr]
      rw [ih]
      constructor
      · intro h e he
        rcases List.mem_cons.mp he with he | he
        · rw [he]; exact hr
        · exact h e he
      · intro h e he
        exact h e (by simp [he])

/-- C2: `load_file` attempts the candidate encodings in the fixed order
{requested first, `utf-8-sig`, `utf-16`, `utf-16-le`, `utf-16-be`,
`cp932`} and returns the text of the first candidate that decodes: the
source loop (with its `tried` set) equals the plain first-success
traversal of the candidate list; a non-`decodeErr` outcome arises exactly
at the first candidate that either decodes or hits the uncaught read
(`OSError`) failure; the overall decode failure, which `load_file` turns
into a `FileOperationError`, arises exactly when no candidate decodes.  In
particular, loading the UTF-16-encoded file containing "fallback text"
with the default encoding returns exactly "fallback text". -/
theorem fileModel_load_fallback_order :
    (∀ (read : String → ReadOutcome (List Nat)) (primary : String),
       readTextWithFallback read primary
         = tryCandidatesSpec read (candidates primary))
    ∧ (∀ (read : String → ReadOutcome (List Nat)) (primary : String)
         (o : ReadOutcome (List Nat)), o ≠ ReadOutcome.decodeErr →
         (tryCandidatesSpec read (candidates primary) = o ↔
           ∃ pre enc post, candidates primary = pre ++ enc :: post
             ∧ (∀ e ∈ pre, read e = ReadOutcome.decodeErr)
             ∧ read enc = o))
    ∧ (∀ (read : String → ReadOutcome (List Nat)) (primary : String),
         tryCandidatesSpec read (candidates primary) = ReadOutcome.decodeErr ↔
           ∀ e ∈ candidates primary, read e = ReadOutcome.decodeErr)
    ∧ loadFile scenarioFs ⟨true, ["doc.txt"]⟩ "utf-8" = Except.ok fallbackText := by
  refine ⟨?_, ?_, ?_, ?_⟩
  · intro read primary
    exact readFallbackLoop_spec read (candidates primary) [] (by simp)
  · intro read primary o ho
    exact tryCandidatesSpec_stops_iff read (candidates primary) o ho
  · intro read primary
    exact tryCandidatesSpec_decodeErr_iff read (candidates primary)
  · rfl

/-- Witness for C2 at the concrete UTF-16 scenario: the first candidate
that decodes is `utf-16` (after `utf-8` and `utf-8-sig` fail), and the
traversal returns its text. -/
theorem fileModel_load_fallback_order_witness :
    tryCandidatesSpec (readText scenarioFs ["doc.txt"]) (candidates "utf-8")
      = ReadOutcome.ok fallbackText :=
  (fileModel_load_fallback_order.2.1 (readText scenarioFs ["doc.txt"])
    "utf-8" (ReadOutcome.ok fallbackText) (by simp)).mpr
    ⟨["utf-8", "utf-8-sig"], "utf-16", ["utf-16-le", "utf-16-be", "cp932"],
      rfl, by decide, rfl⟩

theorem utf8DecodeOne_scalar (b : Nat) (rest : List Nat) (c : Nat)
    (rest2 : List Nat) (h : utf8DecodeOne b rest = some (c, rest2)) :
    ScalarValue c := by
  unfold utf8DecodeOne at h
  by_cases h1 : b < 0x80
  · rw [if_pos h1] at h
    cases h
    left
    omega
  · rw [if_neg h1] at h
    by_cases h2 : b < 0xC2
    · rw [if_pos h2] at h
      cases h
    · rw [if_neg h2] at h
      by_cases h3 : b < 0xE0
      · rw [if_pos h3] at h
        cases rest with
        | nil => dsimp only at h; cases h
        | cons b2 restA =>
          dsimp only at h
          by_cases h4 : Cont b2
          · rw [if_pos h4] at h
            cases h
            obtain ⟨h4a, h4b⟩ := h4
            left
            omega
          · rw [if_neg h4] at h
            cases h
      · rw [if_neg h3] at h
        by_cases h5 : b < 0xF0
        · rw [if_pos h5] at h
          rcases rest with - | ⟨b2, - | ⟨b3, restA⟩⟩
          · dsimp only at h; cases h
          · dsimp only at h; cases h
          · dsimp only at h
            by_cases h6 : Cont b2 ∧ Cont b3 ∧ (b = 0xE0 → 0xA0 ≤ b2)
                ∧ (b = 0xED → b2 < 0xA0)
            · rw [if_pos h6] at h
              cases h
              obtain ⟨⟨h2l, h2u⟩, ⟨h3l, h3u⟩, he0, hed⟩ := h6
              have hsur : b ≠ 0xED ∨ b2 < 0xA0 := by
                by_cases hbe : b = 0xED
                · right; exact hed hbe
                · left; exact hbe
              rcases hsur with hs | hs
              · by_cases hv : b < 0xED
                · left; omega
                · right
                  exact ⟨by omega, by omega⟩
              · by_cases hv : b ≤ 0xED
                · left; omega
                · right
                  exact ⟨by omega, by omega⟩
            · rw [if_neg h6] at h
              cases h
        · rw [if_neg h5] at h
          by_cases h7 : b < 0xF5
          · rw [if_pos h7] at h
            rcases rest with - | ⟨b2, - | ⟨b3, - | ⟨b4, restA⟩⟩⟩
            · dsimp only at h; cases h
            · dsimp only at h; cases h
            · dsimp only at h; cases h
            · dsimp only at h
              by_cases h8 : Cont b2 ∧ Cont b3 ∧ Cont b4
                  ∧ (b = 0xF0 → 0x90 ≤ b2) ∧ (b = 0xF4 → b2 < 0x90)
              · rw [if_pos h8] at h
                cases h
                obtain ⟨⟨h2l, h2u⟩, ⟨h3l, h3u⟩, ⟨h4l, h4u⟩, he0, hed⟩ := h8
                have hg1 : b ≠ 0xF0 ∨ 0x90 ≤ b2 := by
                  by_cases hbe : b = 0xF0
                  · right; exact he0 hbe
                  · left; exact hbe
                have hg2 : b ≠ 0xF4 ∨ b2 < 0x90 := by
                  by_cases hbe : b = 0xF4
                  · right; exact hed hbe
                  · left; exact hbe
                right
                rcases hg1 with hg1 | hg1 <;> rcases hg2 with hg2 | hg2 <;>
                  exact ⟨by omega, by omega⟩
              · rw [if_neg h8] at h
                cases h
          · rw [if_neg h7] at h
            cases h

theorem utf8DecodeF_scalar :
    ∀ (fuel : Nat) (bs t : List Nat), utf8DecodeF fuel bs = some t →
      ∀ c ∈ t, ScalarValue c := by
  intro fuel
  induction fuel with
  | zero =>
    intro bs t h c hc
    cases bs with
    | nil =>
      simp only [utf8DecodeF] at h
      cases h
      simp at hc
    | cons b rest =>
      simp only [utf8DecodeF] at h
      cases h
  | succ f ih =>
    intro bs t h c hc
    cases bs with
    | nil =>
      simp only [utf8DecodeF] at h
      cases h
      simp at hc
    | cons b rest =>
      simp only [utf8DecodeF] at h
      cases hone : utf8DecodeOne b rest with
      | none => rw [hone] at h; dsimp only at h; cases h
      | some pr =>
        obtain ⟨c0, rest2⟩ := pr
        rw [hone] at h
        dsimp only at h
        cases hd : utf8DecodeF f rest2 with
        | none => rw [hd] at h; simp at h
        | some t0 =>
          rw [hd] at h
          simp only [Option.map_some'] at h
          cases h
          rcases List.mem_cons.mp hc with hc | hc
          · subst hc
            exact utf8DecodeOne_scalar b rest c rest2 hone
          · exact ih rest2 t0 hd c hc

theorem utf8Decode_scalar (bs : List Nat) :
    ∀ t, utf8Decode bs = some t → ∀ c ∈ t, ScalarValue c := by
  intro t h
  unfold utf8Decode at h
  exact utf8DecodeF_scalar bs.length bs t h

theorem utf8EncodeChar_decodeOne (c : Nat) (hc : ScalarValue c) :
    ∃ b tail, utf8EncodeChar c = b :: tail
      ∧ ∀ X, utf8DecodeOne b (tail ++ X) = some (c, X) := by
  by_cases h1 : c < 0x80
  · refine ⟨c, [], ?_, ?_⟩
    · rw [utf8EncodeChar, if_pos h1]
    · intro X
      simp only [List.nil_append]
      unfold utf8DecodeOne
      rw [if_pos h1]
  · by_cases h2 : c < 0x800
    · refine ⟨0xC0 + c / 64, [0x80 + c % 64], ?_, ?_⟩
      · rw [utf8EncodeChar, if_neg h1, if_pos h2]
      · intro X
        simp only [List.cons_append, List.nil_append]
        unfold utf8DecodeOne
        rw [if_neg (by omega), if_neg (by omega), if_pos (by omega)]
        dsimp only
        rw [if_pos (show Cont (0x80 + c % 64) from ⟨by omega, by omega⟩)]
        rw [show ((0xC0 + c / 64) - 0xC0) * 64 + ((0x80 + c % 64) - 0x80) = c
          from by omega]
    · by_cases h3 : c < 0x10000
      · refine ⟨0xE0 + c / 4096, [0x80 + c / 64 % 64, 0x80 + c % 64], ?_, ?_⟩
        · rw [utf8EncodeChar, if_neg h1, if_neg h2, if_pos h3]
        · intro X
          simp only [List.cons_append, List.nil_append]
          unfold utf8DecodeOne
          rw [if_neg (by omega), if_neg (by omega), if_neg (by omega),
            if_pos (by omega)]
          dsimp only
          rw [if_pos ?hcond3]
          case hcond3 =>
            refine ⟨⟨by omega, by omega⟩, ⟨by omega, by omega⟩, ?_, ?_⟩
            · intro hb
              omega
            · intro hb
              rcases hc with hc | hc <;> omega
          rw [show ((0xE0 + c / 4096) - 0xE0) * 4096
            + ((0x80 + c / 64 % 64) - 0x80) * 64 + ((0x80 + c % 64) - 0x80)
            = c from by omega]
      · have h4 : c < 0x110000 := by
          rcases hc with hc | hc <;> omega
        refine ⟨0xF0 + c / 262144,
          [0x80 + c / 4096 % 64, 0x80 + c / 64 % 64, 0x80 + c % 64], ?_, ?_⟩
        · rw [utf8EncodeChar, if_neg h1, if_neg h2, if_neg h3]
        · intro X
          simp only [List.cons_append, List.nil_append]
          unfold utf8DecodeOne
          rw [if_neg (by omega), if_neg (by omega), if_neg (by omega),
            if_neg (by omega), if_pos (by omega)]
          dsimp only
          rw [if_pos ?hcond4]
          case hcond4 =>
            refine ⟨⟨by omega, by omega⟩, ⟨by omega, by omega⟩,
              ⟨by omega, by omega⟩, ?_, ?_⟩
            · intro hb
              omega
            · intro hb
              omega
          rw [show ((0xF0 + c / 262144) - 0xF0) * 262144
            + ((0x80 + c / 4096 % 64) - 0x80) * 4096
            + ((0x80 + c / 64 % 64) - 0x80) * 64 + ((0x80 + c % 64) - 0x80)
            = c from by omega]

theorem utf8DecodeF_roundtrip (cs : List Nat) :
    (∀ c ∈ cs, ScalarValue c) → ∀ fuel, (utf8Encode cs).length ≤ fuel →
      utf8DecodeF fuel (utf8Encode cs) = some cs := by
  induction cs with
  | nil =>
    intro _ fuel _
    show utf8DecodeF fuel [] = some []
    cases fuel <;> simp [utf8DecodeF]
  | cons c rest ih =>
    intro h fuel hf
    obtain ⟨b, tail, hshape, hdec⟩ := utf8EncodeChar_decodeOne c (h c (by simp))
    have henc : utf8Encode (c :: rest) = b :: (tail ++ utf8Encode rest) := by
      show (List.map utf8EncodeChar (c :: rest)).flatten = _
      rw [List.map_cons, List.flatten_cons, hshape, List.cons_append]
      rfl
    rw [henc] at hf ⊢
    cases fuel with
    | zero => simp at hf
    | succ f =>
      simp only [utf8DecodeF]
      rw [hdec (utf8Encode rest)]
      dsimp only
      have hlen : (utf8Encode rest).length ≤ f := by
        simp only [List.length_cons, List.length_append] at hf
        omega
      rw [ih (fun d hd => h d (by simp [hd])) f hlen]
      rfl

/-- Decoding the UTF-8 encoding of scalar text yields the text back: this
is what makes the first reload candidate succeed after a save. -/
theorem utf8_roundtrip (cs : List Nat) (h : ∀ c ∈ cs, ScalarValue c) :
    utf8Decode (utf8Encode cs) = some cs := by
  unfold utf8Decode
  exact utf8DecodeF_roundtrip cs h (utf8Encode cs).length le_rfl

theorem utf8SigDecode_scalar (bs : List Nat) (t : List Nat)
    (h : utf8SigDecode bs = some t) : ∀ c ∈ t, ScalarValue c := by
  unfold utf8SigDecode at h
  split at h
  · exact utf8Decode_scalar _ t h
  · exact utf8Decode_scalar _ t h

theorem utf16Units_bound (le : Bool) (bs : List Nat) :
    ∀ us, utf16Units le bs = some us → ∀ u ∈ us, u < 0x10000 := by
  induction bs using utf16Units.induct le with
  | case1 =>
    intro us h u hu
    rw [utf16Units.eq_def] at h
    dsimp only at h
    cases h
    simp at hu
  | case2 b =>
    intro us h u hu
    rw [utf16Units.eq_def] at h
    dsimp only at h
    cases h
  | case3 b1 b2 rest hlt ih =>
    intro us h u hu
    rw [utf16Units.eq_def] at h
    dsimp only at h
    rw [if_pos hlt] at h
    cases hd : utf16Units le rest with
    | none => rw [hd] at h; simp at h
    | some us0 =>
      rw [hd] at h
      simp only [Option.map_some'] at h
      cases h
      rcases List.mem_cons.mp hu with hu | hu
      · subst hu
        obtain ⟨hb1, hb2⟩ := hlt
        cases le
        · rw [if_neg (by simp)]
          omega
        · rw [if_pos rfl]
          omega
      · exact ih us0 hd u hu
  | case4 b1 b2 rest hlt =>
    intro us h u hu
    rw [utf16Units.eq_def] at h
    dsimp only at h
    rw [if_neg hlt] at h
    cases h

theorem combineOne_scalar (u : Nat) (rest : List Nat) (c : Nat)
    (rest2 : List Nat) (h : combineOne u rest = some (c, rest2))
    (hu : u < 0x10000) (hrest : ∀ v ∈ rest, v < 0x10000) :
    ScalarValue c := by
  unfold combineOne at h
  by_cases h1 : u < 0xD800 ∨ 0xE000 ≤ u
  · rw [if_pos h1] at h
    cases h
    rcases h1 with h1 | h1
    · left; exact h1
    · right; exact ⟨h1, by omega⟩
  · rw [if_neg h1] at h
    by_cases h2 : u < 0xDC00
    · rw [if_pos h2] at h
      cases rest with
      | nil => dsimp only at h; cases h
      | cons u2 restA =>
        dsimp only at h
        by_cases h3 : 0xDC00 ≤ u2 ∧ u2 < 0xE000
        · obtain ⟨h3a, h3b⟩ := h3
          simp [h3a, h3b] at h
          obtain ⟨hc, -⟩ := h
          right
          omega
        · simp [h3] at h
    · rw [if_neg h2] at h
      cases h

theorem combineOne_mem (u : Nat) (rest : List Nat) (c : Nat)
    (rest2 : List Nat) (h : combineOne u rest = some (c, rest2)) :
    ∀ v ∈ rest2, v ∈ rest := by
  unfold combineOne at h
  by_cases h1 : u < 0xD800 ∨ 0xE000 ≤ u
  · rw [if_pos h1] at h
    cases h
    intro v hv
    exact hv
  · rw [if_neg h1] at h
    by_cases h2 : u < 0xDC00
    · rw [if_pos h2] at h
      cases rest with
      | nil => dsimp only at h; cases h
      | cons u2 restA =>
        dsimp only at h
        by_cases h3 : 0xDC00 ≤ u2 ∧ u2 < 0xE000
        · obtain ⟨h3a, h3b⟩ := h3
          simp [h3a, h3b] at h
          obtain ⟨-, hr⟩ := h
          intro v hv
          rw [← hr] at hv
          exact List.mem_cons_of_mem u2 hv
        · simp [h3] at h
    · rw [if_neg h2] at h
      cases h

theorem combineSurrogatesF_scalar :
    ∀ (fuel : Nat) (us t : List Nat), combineSurrogatesF fuel us = some t →
      (∀ u ∈ us, u < 0x10000) → ∀ c ∈ t, ScalarValue c := by
  intro fuel
  induction fuel with
  | zero =>
    intro us t h hb c hc
    cases us with
    | nil =>
      simp only [combineSurrogatesF] at h
      cases h
      simp at hc
    | cons u rest =>
      simp only [combineSurrogatesF] at h
      cases h
  | succ f ih =>
    intro us t h hb c hc
    cases us with
    | nil =>
      simp only [combineSurrogatesF] at h
      cases h
      simp at hc
    | cons u rest =>
      simp only [combineSurrogatesF] at h
      cases hone : combineOne u rest with
      | none => rw [hone] at h; dsimp only at h; cases h
      | some pr =>
        obtain ⟨c0, rest2⟩ := pr
        rw [hone] at h
        dsimp only at h
        cases hd : combineSurrogatesF f rest2 with
        | none => rw [hd] at h; simp at h
        | some t0 =>
          rw [hd] at h
          simp only [Option.map_some'] at h
          cases h
          rcases List.mem_cons.mp hc with hc | hc
          · subst hc
            exact combineOne_scalar u rest c rest2 hone (hb u (by simp))
              (fun v hv => hb v (by simp [hv]))
          · exact ih rest2 t0 hd
              (fun v hv => hb v (by simp [combineOne_mem u rest c0 rest2 hone v hv]))
              c hc

theorem combineSurrogates_scalar (us : List Nat) :
    ∀ t, combineSurrogates us = some t → (∀ u ∈ us, u < 0x10000) →
      ∀ c ∈ t, ScalarValue c := by
  intro t h hb
  unfold combineSurrogates at h
  exact combineSurrogatesF_scalar us.length us t h hb

theorem utf16LeDecode_scalar (bs t : List Nat) (h : utf16LeDecode bs = some t) :
    ∀ c ∈ t, ScalarValue c := by
  unfold utf16LeDecode at h
  cases hu : utf16Units true bs with
  | none => rw [hu] at h; cases h
  | some us =>
    rw [hu] at h
    dsimp only [Option.bind] at h
    exact combineSurrogates_scalar us t h (utf16Units_bound true bs us hu)

theorem utf16BeDecode_scalar (bs t : List Nat) (h : utf16BeDecode bs = some t) :
    ∀ c ∈ t, ScalarValue c := by
  unfold utf16BeDecode at h
  cases hu : utf16Units false bs with
  | none => rw [hu] at h; cases h
  | some us =>
    rw [hu] at h
    dsimp only [Option.bind] at h
    exact combineSurrogates_scalar us t h (utf16Units_bound false bs us hu)

theorem utf16Decode_scalar (bs t : List Nat) (h : utf16Decode bs = some t) :
    ∀ c ∈ t, ScalarValue c := by
  unfold utf16Decode at h
  split at h
  · exact utf16LeDecode_scalar _ t h
  · exact utf16BeDecode_scalar _ t h
  · exact utf16LeDecode_scalar _ t h

/-- Every text a modelled decoder produces consists of scalar values. -/
theorem decodeBytes_scalar (enc : String) (bs t : List Nat)
    (h : decodeBytes enc bs = some t) : ∀ c ∈ t, ScalarValue c := by
  unfold decodeBytes at h
  split at h
  · exact utf8Decode_scalar bs t h
  · split at h
    · exact utf8SigDecode_scalar bs t h
    · split at h
      · exact utf16Decode_scalar bs t h
      · split at h
        · exact utf16LeDecode_scalar bs t h
        · split at h
          · exact utf16BeDecode_scalar bs t h
          · split at h
            · rw [cp932Decode] at h
              split at h
              · rename_i hall
                cases h
                intro c hc
                left
                have hb := List.all_eq_true.mp hall c hc
                simp at hb
                omega
              · cases h
            · cases h

theorem lookupFs_setFs_self (fs : Folder.FS) (p : List String)
    (e : Folder.FsEntry) :
    Folder.lookupFs (Folder.setFs fs p e) p = some e := by
  induction fs with
  | nil => simp [Folder.setFs, Folder.lookupFs]
  | cons q rest ih =>
    by_cases hq : q.1 = p
    · simp [Folder.setFs, Folder.lookupFs, hq]
    · simpa [Folder.setFs, Folder.lookupFs, hq] using ih

/-- C6: when `load_file` succeeds with the default encoding, saving the
returned text back to the same path with `save_file` and loading again
returns the same text: the save writes the UTF-8 bytes of the text, and
the reload's first candidate (`utf-8`) decodes them back to the text,
because every decoder in the fallback sequence produces scalar values and
UTF-8 decoding inverts UTF-8 encoding on scalar text. -/
theorem fileModel_load_save_roundtrip (fs : Folder.FS) (path : RawPath)
    (t : List Nat) (h : loadFile fs path "utf-8" = Except.ok t) :
    loadFile (saveFile fs path t) path "utf-8" = Except.ok t := by
  have hscalar : ∀ c ∈ t, ScalarValue c := by
    unfold loadFile at h
    cases hr : readTextWithFallback (readText fs (canon path)) "utf-8" with
    | ok t0 =>
      rw [hr] at h
      dsimp only at h
      cases h
      unfold readTextWithFallback at hr
      rw [readFallbackLoop_spec (readText fs (canon path))
        (candidates "utf-8") [] (by simp)] at hr
      obtain ⟨pre, enc, post, hsplit, hpre, henc⟩ :=
        tryCandidatesSpec_eq_elim (readText fs (canon path))
          (candidates "utf-8") (ReadOutcome.ok t) (by simp) hr
      unfold readText at henc
      cases hl : Folder.lookupFs fs (canon path) with
      | none =>
        rw [hl] at henc
        dsimp only at henc
        cases henc
      | some entry =>
        rw [hl] at henc
        cases entry with
        | dir =>
          dsimp only at henc
          cases henc
        | file bytes =>
          dsimp only at henc
          cases hdec : decodeBytes enc bytes with
          | none => rw [hdec] at henc; cases henc
          | some t1 =>
            rw [hdec] at henc
            dsimp only at henc
            cases henc
            exact decodeBytes_scalar enc bytes t hdec
    | decodeErr =>
      rw [hr] at h
      dsimp only at h
      cases h
    | osErr =>
      rw [hr] at h
      dsimp only at h
      cases h
  have hread : readText (saveFile fs path t) (canon path) "utf-8"
      = ReadOutcome.ok t := by
    unfold readText saveFile
    rw [lookupFs_setFs_self]
    dsimp only
    have hdec : decodeBytes "utf-8" (utf8Encode t) = some t := by
      unfold decodeBytes
      rw [if_pos rfl]
      exact utf8_roundtrip t hscalar
    rw [hdec]
  have hloop : readTextWithFallback
      (readText (saveFile fs path t) (canon path)) "utf-8"
        = ReadOutcome.ok t := by
    unfold readTextWithFallback
    rw [readFallbackLoop_spec (readText (saveFile fs path t) (canon path))
      (candidates "utf-8") [] (by simp)]
    show tryCandidatesSpec _ ("utf-8" :: _) = _
    rw [tryCandidatesSpec.eq_def]
    dsimp only
    rw [hread]
  unfold loadFile
  rw [hloop]

/-- Witness for C6: the UTF-16 "fallback text" scenario round-trips
through a save. -/
theorem fileModel_load_save_roundtrip_witness :
    loadFile (saveFile scenarioFs ⟨true, ["doc.txt"]⟩ fallbackText)
      ⟨true, ["doc.txt"]⟩ "utf-8" = Except.ok fallbackText :=
  fileModel_load_save_roundtrip scenarioFs ⟨true, ["doc.txt"]⟩ fallbackText
    (by rfl)

end FileM


namespace Txt

/-- A string all of whose characters are Python whitespace strips to the
empty string. -/
theorem pstrip_all_ws (s : List Char) (h : ∀ c ∈ s, isPyWs c = true) :
    pstrip s = [] := by
  unfold pstrip
  have h1 : s.dropWhile isPyWs = [] := by
    rw [List.dropWhile_eq_nil_iff]
    intro c hc
    exact h c hc
  rw [h1]
  rfl

end Txt

namespace AI

open Txt

/-- C8: for every prompt consisting only of whitespace (the empty string
included), `AIController.generate_code` raises the validation `ValueError`.
The theorem quantifies over the client-acquisition function and the result
does not mention it: the outcome is the same whatever client would have
been obtained, so the underlying `generate` is never consulted. -/
theorem aiController_rejects_blank_prompt
    (getClient : Unit → Except String Client) (modelName : String)
    (prompt : List Char) (h : ∀ c ∈ prompt, isPyWs c = true) :
    generateCode getClient modelName prompt
      = Except.error GenError.emptyPrompt := by
  unfold generateCode
  rw [if_pos (Txt.pstrip_all_ws prompt h)]

/-- Witness for C8: a prompt of spaces, a tab and a newline is rejected,
whatever the client would have answered. -/
theorem aiController_rejects_blank_prompt_witness :
    generateCode
      (fun _ => Except.ok (fun _ p => Except.ok p)) "gpt-4o-mini"
      (' ' :: '\t' :: '\n' :: [' '])
      = Except.error GenError.emptyPrompt :=
  aiController_rejects_blank_prompt
    (fun _ => Except.ok (fun _ p => Except.ok p)) "gpt-4o-mini"
    (' ' :: '\t' :: '\n' :: [' ']) (by decide)

end AI

namespace Chat

open Txt

/-- The non-greedy body group: a backtick-free body followed by a closing
fence matches with exactly that body. -/
theorem takeUntilFence_closes (body post : List Char)
    (hbody : ∀ c ∈ body, c ≠ bt) :
    takeUntilFence (body ++ fence ++ post) = some body := by
  induction body with
  | nil =>
    show takeUntilFence (bt :: bt :: bt :: post) = some []
    rw [takeUntilFence]
    rw [if_pos (show (bt :: bt :: bt :: post).take 3 = fence from rfl)]
  | cons c rest ih =>
    have hc := hbody c (by simp)
    show takeUntilFence (c :: (rest ++ fence ++ post)) = some (c :: rest)
    have hne : ¬((c :: (rest ++ fence ++ post)).take 3 = fence) := by
      intro heq
      have h2 : (c :: (rest ++ fence ++ post)).take 3
          = c :: (rest ++ fence ++ post).take 2 := rfl
      have hf : fence = bt :: bt :: bt :: [] := rfl
      rw [h2, hf] at heq
      injection heq with h1 h2'
      exact hc h1
    rw [takeUntilFence, if_neg hne]
    rw [ih (fun d hd => hbody d (by simp [hd]))]
    rfl

/-- The fence pattern matches at the opening fence of a well-formed block
and captures the body. -/
theorem matchFenceAt_at_fence (lang body post : List Char)
    (hlang : ∀ c ∈ lang, isWordTagChar c = true)
    (hbody : ∀ c ∈ body, c ≠ bt) :
    matchFenceAt (fence ++ lang ++ '\n' :: (body ++ fence ++ post))
      = some body := by
  show matchFenceAt
    (bt :: bt :: bt :: (lang ++ '\n' :: (body ++ fence ++ post))) = some body
  rw [matchFenceAt]
  rw [if_pos ⟨rfl, rfl, rfl⟩]
  have hdrop : (lang ++ '\n' :: (body ++ fence ++ post)).dropWhile isWordTagChar
      = '\n' :: (body ++ fence ++ post) := by
    rw [List.dropWhile_append]
    have hnil : lang.dropWhile isWordTagChar = [] := by
      rw [List.dropWhile_eq_nil_iff]
      intro c hc
      exact hlang c hc
    rw [hnil]
    simp [List.dropWhile_cons, show isWordTagChar '\n' = false from by decide]
  rw [hdrop]
  dsimp only
  rw [if_pos rfl]
  exact takeUntilFence_closes body post hbody

/-- The fence pattern never matches at a position holding a non-backtick
character. -/
theorem matchFenceAt_ne_bt (c : Char) (rest : List Char) (hc : c ≠ bt) :
    matchFenceAt (c :: rest) = none := by
  rcases rest with _ | ⟨c2, _ | ⟨c3, rest3⟩⟩
  · rfl
  · rfl
  · rw [matchFenceAt]
    rw [if_neg (fun hh => hc hh.1)]

/-- `re.search` over backtick-free text followed by a well-formed block
finds that block's body. -/
theorem searchFence_at_fence (pre lang body post : List Char)
    (hpre : ∀ c ∈ pre, c ≠ bt)
    (hlang : ∀ c ∈ lang, isWordTagChar c = true)
    (hbody : ∀ c ∈ body, c ≠ bt) :
    searchFence (pre ++ fence ++ lang ++ '\n' :: (body ++ fence ++ post))
      = some body := by
  induction pre with
  | nil =>
    have hm : matchFenceAt
        (bt :: bt :: bt :: (lang ++ '\n' :: (body ++ fence ++ post)))
          = some body :=
      matchFenceAt_at_fence lang body post hlang hbody
    show searchFence
      (bt :: bt :: bt :: (lang ++ '\n' :: (body ++ fence ++ post))) = some body
    rw [searchFence]
    rw [hm]
  | cons c rest ih =>
    show searchFence
      (c :: (rest ++ fence ++ lang ++ '\n' :: (body ++ fence ++ post)))
        = some body
    rw [searchFence]
    rw [matchFenceAt_ne_bt c _ (hpre c (by simp))]
    exact ih (fun d hd => hpre d (by simp [hd]))

/-- `re.search` over backtick-free text finds nothing. -/
theorem searchFence_no_bt (s : List Char) (h : ∀ c ∈ s, c ≠ bt) :
    searchFence s = none := by
  induction s with
  | nil => rfl
  | cons c rest ih =>
    rw [searchFence]
    rw [matchFenceAt_ne_bt c rest (h c (by simp))]
    exact ih (fun d hd => h d (by simp [hd]))

/-- C3: in a chat edit request with exactly one attached file, when the AI
response holds a fenced code block the content of the first such block,
stripped of leading and trailing whitespace, is written to the attached
target file; when the response holds no fence (here: no backtick at all)
the whole response text is written instead.  The response with a block is
decomposed as backtick-free text, the opening fence, a word-character
language tag, a newline, a backtick-free body, the closing fence and an
arbitrary tail. -/
theorem chatEdit_applies_first_code_block :
    (∀ (instruction : List Char) (target : List String) (orig : List Char)
       (fs : ChatFs) (pre lang body post : List Char),
       pstrip instruction ≠ [] →
       (∀ c ∈ pre, c ≠ bt) →
       (∀ c ∈ lang, isWordTagChar c = true) →
       (∀ c ∈ body, c ≠ bt) →
       handleChatEditRequested
         (fun _ => Except.ok
           (pre ++ fence ++ lang ++ '\n' :: (body ++ fence ++ post)))
         applyExternalEdit instruction [(target, orig)] fs
         = (EditOutcome.applied, [], chatSet fs target (pstrip body)))
    ∧ (∀ (instruction : List Char) (target : List String) (orig : List Char)
         (fs : ChatFs) (response : List Char),
         pstrip instruction ≠ [] →
         (∀ c ∈ response, c ≠ bt) →
         handleChatEditRequested (fun _ => Except.ok response)
           applyExternalEdit instruction [(target, orig)] fs
           = (EditOutcome.applied, [], chatSet fs target response)) := by
  constructor
  · intro instruction target orig fs pre lang body post hinstr hpre hlang hbody
    have hext : extractCodeBlock
        (pre ++ fence ++ lang ++ '\n' :: (body ++ fence ++ post))
          = some (pstrip body) := by
      unfold extractCodeBlock
      rw [searchFence_at_fence pre lang body post hpre hlang hbody]
      rfl
    unfold handleChatEditRequested
    rw [if_neg hinstr]
    dsimp only
    rw [hext]
    rfl
  · intro instruction target orig fs response hinstr hresp
    have hext : extractCodeBlock response = none := by
      unfold extractCodeBlock
      rw [searchFence_no_bt response hresp]
      rfl
    unfold handleChatEditRequested
    rw [if_neg hinstr]
    dsimp only
    rw [hext]
    rfl

/-- Witness for C3 at the concrete scenario of the claim: a response that
is exactly a fenced `text` block holding a line of content makes the
handler overwrite the attached file with that content, stripped. -/
theorem chatEdit_applies_first_code_block_witness :
    handleChatEditRequested
      (fun _ => Except.ok
        ([] ++ fence ++ "text".toList
          ++ '\n' :: ("content\n".toList ++ fence ++ [])))
      applyExternalEdit "fix it".toList [(["f", "txt"], [])] []
      = (EditOutcome.applied, [],
         chatSet [] ["f", "txt"] (pstrip "content\n".toList))
    ∧ pstrip "content\n".toList = "content".toList := by
  constructor
  · exact chatEdit_applies_first_code_block.1 "fix it".toList ["f", "txt"]
      [] [] [] "text".toList "content\n".toList [] (by decide) (by decide)
      (by decide) (by decide)
  · decide

/-- C10: the pending attachment list is cleared exactly when the chat
submission or the chat edit request completes successfully; when the input
validation fails (blank input, zero or several attachments), the AI call
raises, or — for edits — applying the result to the file raises, the
pending list is left unchanged. -/
theorem chat_pending_cleared_iff_success :
    (∀ (ai : List Char → Except Unit (List Char)) (message : List Char)
       (pending : List Attachment),
       ((handleChatSubmitted ai message pending).1.isOk = true →
          (handleChatSubmitted ai message pending).2 = [])
       ∧ ((handleChatSubmitted ai message pending).1.isOk = false →
          (handleChatSubmitted ai message pending).2 = pending))
    ∧ (∀ (ai : List Char → Except Unit (List Char))
         (applyFn : ChatFs → List String → List Char → Except Unit ChatFs)
         (instruction : List Char) (pending : List Attachment) (fs : ChatFs),
         ((handleChatEditRequested ai applyFn instruction pending fs).1.isOk
             = true →
           (handleChatEditRequested ai applyFn instruction pending fs).2.1
             = [])
         ∧ ((handleChatEditRequested ai applyFn instruction pending fs).1.isOk
             = false →
           (handleChatEditRequested ai applyFn instruction pending fs).2.1
             = pending)) := by
  constructor
  · intro ai message pending
    unfold handleChatSubmitted
    by_cases hm : pstrip message = []
    · rw [if_pos hm]
      refine ⟨fun hok => ?_, fun _ => rfl⟩
      cases hok
    · rw [if_neg hm]
      cases hai : ai (composeChatPrompt (pstrip message) pending) with
      | error e =>
        refine ⟨fun hok => ?_, fun _ => rfl⟩
        cases hok
      | ok r =>
        refine ⟨fun _ => rfl, fun hok => ?_⟩
        cases hok
  · intro ai applyFn instruction pending fs
    unfold handleChatEditRequested
    by_cases hi : pstrip instruction = []
    · rw [if_pos hi]
      refine ⟨fun hok => ?_, fun _ => rfl⟩
      cases hok
    · rw [if_neg hi]
      match pending with
      | [] =>
        refine ⟨fun hok => ?_, fun _ => rfl⟩
        cases hok
      | [a] =>
        dsimp only
        cases hai : ai (composeChatPrompt (pstrip instruction ++ editSuffix)
            [a]) with
        | error e =>
          dsimp only
          refine ⟨fun hok => ?_, fun _ => rfl⟩
          cases hok
        | ok response =>
          dsimp only
          cases happ : applyFn fs a.1
              ((extractCodeBlock response).getD response) with
          | error e =>
            dsimp only
            refine ⟨fun hok => ?_, fun _ => rfl⟩
            cases hok
          | ok fs2 =>
            dsimp only
            refine ⟨fun _ => rfl, fun hok => ?_⟩
            cases hok
      | a :: b :: rest =>
        refine ⟨fun hok => ?_, fun _ => rfl⟩
        cases hok

/-- Witness for C10: a successful submission clears the one pending
attachment; a submission whose AI call raises leaves it in place. -/
theorem chat_pending_cleared_iff_success_witness :
    (handleChatSubmitted (fun _ => Except.ok ['o', 'k']) ['h', 'i']
       [(["f"], ['x'])]).2 = []
    ∧ (handleChatSubmitted (fun _ => Except.error ()) ['h', 'i']
       [(["f"], ['x'])]).2 = [(["f"], ['x'])] := by
  constructor
  · exact (chat_pending_cleared_iff_success.1 (fun _ => Except.ok ['o', 'k'])
      ['h', 'i'] [(["f"], ['x'])]).1 (by decide)
  · exact (chat_pending_cleared_iff_success.1 (fun _ => Except.error ())
      ['h', 'i'] [(["f"], ['x'])]).2 (by decide)

end Chat

end MyEditor
